import Mathlib

/-!
# apod-wallpaper: a shallow embedding of `main.go`

The program fetches the APOD record, downloads the picture, archives older
pictures and sets the wallpaper.  This development embeds the string
functions (`stripFileName`, `getAPIKey`), the file operations
(`downloadImage`, `archiveOldImages`) and the control flow of `fetchAPI`
and `main`, and states the properties of the specification over them.

Conventions.
* A Go `string` is a sequence of bytes (`GoString`); it need not be valid
  UTF-8.  A `rune` (`int32`) is an `Int`; the runes that occur are below 2^21,
  and a negative rune is the "drop" result of a mapping function.
* Functions of the Go standard library are modelled after their
  implementation in the Go distribution (`unicode/utf8`, `strings`, `os`).
* The working directory is a list of named nodes (`Dir`).  The paths that the
  program builds with `path.Join(directoryPath, name)` and
  `path.Join(directoryPath, "archived", name)` denote the entry `name` of the
  working directory and the entry `name` of its subdirectory `archived`:
  `directoryPath` is the working directory and `name` comes from `os.ReadDir`.
  A regular file with several names carries the number of the file, so that
  the state tells whether two entries are names of one file.
* What the program cannot control (the network, the JSON decoder, the calls
  the operating system refuses) is a parameter `Env` of the run.
* `log.Fatal` ends the program: a function that may call it returns an
  `Outcome`, either `returned` or `fatal`, with the directory and the steps
  taken so far.
-/

namespace Apod

/-! ## Go strings and UTF-8 (`unicode/utf8`) -/

/-- A byte of a Go string. -/
abbrev Byte := Fin 256

/-- A Go `string`: a sequence of bytes, valid UTF-8 or not. -/
abbrev GoString := List Byte

/-- The conversion `byte(x)` of a non-negative integer: truncation to 8 bits. -/
def byteOf (n : Nat) : Byte := Fin.ofNat n

/-- The constant `utf8.RuneError`, U+FFFD. -/
def RuneError : Int := 0xFFFD

/-- The constant `utf8.RuneSelf`: runes below it are single bytes. -/
def RuneSelf : Int := 0x80

/-- The constant `utf8.MaxRune`. -/
def MaxRune : Int := 0x10FFFF

/-- The constants `xx` and `as` of `unicode/utf8`: classes of a first byte
that is invalid, respectively ASCII. -/
def xx : Nat := 0xF1

/-- ASCII class of the table `first`. -/
def as : Nat := 0xF0

/-- The table `first` of `unicode/utf8`: information about the first byte of
an encoding.  The low three bits are the size, the high four bits index
`acceptRanges`. -/
def first (b : Byte) : Nat :=
  if b.val < 0x80 then as          -- 0x00-0x7F
  else if b.val < 0xC2 then xx     -- 0x80-0xC1
  else if b.val < 0xE0 then 0x02   -- s1: 0xC2-0xDF
  else if b.val = 0xE0 then 0x13   -- s2
  else if b.val < 0xED then 0x03   -- s3: 0xE1-0xEC
  else if b.val = 0xED then 0x23   -- s4
  else if b.val < 0xF0 then 0x03   -- s3: 0xEE-0xEF
  else if b.val = 0xF0 then 0x34   -- s5
  else if b.val < 0xF4 then 0x04   -- s6: 0xF1-0xF3
  else if b.val = 0xF4 then 0x44   -- s7
  else xx                          -- 0xF5-0xFF

/-- The table `acceptRanges` of `unicode/utf8`, as (lo, hi) of the second
byte. -/
def acceptRanges (i : Nat) : Nat × Nat :=
  if i = 0 then (0x80, 0xBF)
  else if i = 1 then (0xA0, 0xBF)
  else if i = 2 then (0x80, 0x9F)
  else if i = 3 then (0x90, 0xBF)
  else if i = 4 then (0x80, 0x8F)
  else (0, 0)

/-- The function `utf8.DecodeRuneInString`: the first rune of `s` and its
width in bytes; `(RuneError, 0)` on the empty string and `(RuneError, 1)` on
an invalid encoding.  The masks and shifts of the source are written as
`%` and `*`. -/
def decodeRune (s : GoString) : Int × Nat :=
  match s with
  | [] => (RuneError, 0)
  | s0 :: _ =>
    let x := first s0
    if x ≥ as then
      if x = as then ((s0.val : Int), 1) else (RuneError, 1)
    else
      let sz := x % 8
      let accept := acceptRanges (x / 16)
      if s.length < sz then (RuneError, 1)
      else
        let s1 := (s.getD 1 0).val
        if s1 < accept.1 ∨ accept.2 < s1 then (RuneError, 1)
        else if sz ≤ 2 then (((s0.val % 32 * 64 + s1 % 64 : Nat) : Int), 2)
        else
          let s2 := (s.getD 2 0).val
          if s2 < 0x80 ∨ 0xBF < s2 then (RuneError, 1)
          else if sz ≤ 3 then
            (((s0.val % 16 * 4096 + s1 % 64 * 64 + s2 % 64 : Nat) : Int), 3)
          else
            let s3 := (s.getD 3 0).val
            if s3 < 0x80 ∨ 0xBF < s3 then (RuneError, 1)
            else
              (((s0.val % 8 * 262144 + s1 % 64 * 4096 + s2 % 64 * 64 + s3 % 64 : Nat) : Int), 4)

/-- The function `utf8.AppendRune` on an empty buffer (what
`Builder.WriteRune` appends): the UTF-8 encoding of `r`, and the encoding of
`RuneError` when `r` is negative, a surrogate or above `MaxRune`. -/
def encodeRune (r : Int) : GoString :=
  if r < 0 ∨ MaxRune < r ∨ (0xD800 ≤ r ∧ r ≤ 0xDFFF) then [0xEF, 0xBF, 0xBD]
  else
    let i := r.toNat
    if i ≤ 0x7F then [byteOf i]
    else if i ≤ 0x7FF then [byteOf (0xC0 + i / 64), byteOf (0x80 + i % 64)]
    else if i ≤ 0xFFFF then
      [byteOf (0xE0 + i / 4096), byteOf (0x80 + i / 64 % 64), byteOf (0x80 + i % 64)]
    else
      [byteOf (0xF0 + i / 262144), byteOf (0x80 + i / 4096 % 64),
       byteOf (0x80 + i / 64 % 64), byteOf (0x80 + i % 64)]

/-- The loop `for _, c := range s` from a position that is `skip` bytes
before the next rune boundary: the runes of `s`, each with the width
`DecodeRuneInString` reports for it. -/
def rangeFrom : Nat → GoString → List (Int × Nat)
  | _, [] => []
  | k + 1, _ :: t => rangeFrom k t
  | 0, b :: t =>
    let d := decodeRune (b :: t)
    d :: rangeFrom (d.2 - 1) t

/-- The loop `for _, c := range s` over a whole string. -/
def rangeString (s : GoString) : List (Int × Nat) := rangeFrom 0 s

/-- The function `utf8.ValidString`: no position decodes to an invalid
encoding. -/
def validString (s : GoString) : Bool :=
  (rangeString s).all (fun d => !(d.1 == RuneError && d.2 == 1))

/-- The bytes of a Go string literal (UTF-8 source text). -/
def lit (s : String) : GoString :=
  s.data.flatMap (fun c => encodeRune (c.toNat : Int))

/-! ## The package `strings` -/

namespace strings

/-- The function `strings.HasPrefix`. -/
def HasPrefix (s pre : GoString) : Bool :=
  decide (pre.length ≤ s.length) && (s.take pre.length == pre)

/-- The function `strings.HasSuffix`. -/
def HasSuffix (s suffix : GoString) : Bool :=
  decide (suffix.length ≤ s.length) && (s.drop (s.length - suffix.length) == suffix)

/-- The function `strings.TrimPrefix`. -/
def TrimPrefix (s pre : GoString) : GoString :=
  if HasPrefix s pre then s.drop pre.length else s

/-- The function `strings.IndexByte`, searching from offset `i`: the index of
the first `c`, or `-1`. -/
def indexByteFrom (c : Byte) : GoString → Nat → Int
  | [], _ => -1
  | b :: t, i => if b = c then (i : Int) else indexByteFrom c t (i + 1)

/-- The function `strings.Index`, searching from offset `i`: the index of the
first instance of `substr`, or `-1`. -/
def indexFrom (substr : GoString) : GoString → Nat → Int
  | [], i => if substr = [] then (i : Int) else -1
  | b :: t, i => if HasPrefix (b :: t) substr then (i : Int) else indexFrom substr t (i + 1)

/-- The `range` loop of `IndexRune` for `RuneError`: the byte index of the
first position that decodes to `RuneError`, or `-1`. -/
def indexRuneErrorFrom : List (Int × Nat) → Nat → Int
  | [], _ => -1
  | d :: ds, i => if d.1 = RuneError then (i : Int) else indexRuneErrorFrom ds (i + d.2)

/-- The function `utf8.ValidRune`. -/
def ValidRune (r : Int) : Bool :=
  decide ((0 ≤ r ∧ r < 0xD800) ∨ (0xDFFF < r ∧ r ≤ MaxRune))

/-- The function `strings.IndexRune`: the switch of the source, case by case. -/
def IndexRune (s : GoString) (r : Int) : Int :=
  if 0 ≤ r ∧ r < RuneSelf then indexByteFrom (byteOf r.toNat) s 0
  else if r = RuneError then indexRuneErrorFrom (rangeString s) 0
  else if !ValidRune r then -1
  else indexFrom (encodeRune r) s 0

/-- The function `strings.ContainsRune`. -/
def ContainsRune (s : GoString) (r : Int) : Bool :=
  decide (0 ≤ IndexRune s r)

/-- The second loop of `strings.Map`, which runs once the output buffer
exists: every rune `c` of the rest is mapped to `r := mapping(c)`, and `r` is
written (`WriteByte` below `RuneSelf`, `WriteRune` otherwise) unless it is
negative.  A byte of an invalid encoding is read as `RuneError`. -/
def mapRest (mapping : Int → Int) (s : GoString) : GoString :=
  (rangeString s).flatMap (fun d =>
    let r := mapping d.1
    if 0 ≤ r then (if r < RuneSelf then [byteOf r.toNat] else encodeRune r) else [])

/-- The first loop of `strings.Map`, `skip` bytes before the next rune
boundary.  The source goes on to the next rune while
`r == c && c != utf8.RuneError`, or while `c` is a `RuneError` that was
decoded from the three bytes of U+FFFD (`width != 1 && r == c`): the bytes of
`s` up to there are kept (`b.WriteString(s[:i])`).  At the first rune that
is changed, dropped or an invalid encoding, the mapped rune is written with
`WriteRune` unless it is negative, and the second loop takes over behind it. -/
def mapFrom (mapping : Int → Int) : Nat → GoString → GoString
  | _, [] => []
  | k + 1, b :: t => b :: mapFrom mapping k t
  | 0, b :: t =>
    let d := decodeRune (b :: t)
    let r := mapping d.1
    if r = d.1 ∧ ¬ (d.1 = RuneError ∧ d.2 = 1) then b :: mapFrom mapping (d.2 - 1) t
    else (if 0 ≤ r then encodeRune r else []) ++ mapRest mapping (t.drop (d.2 - 1))

/-- The function `strings.Map`. -/
def Map (mapping : Int → Int) (s : GoString) : GoString := mapFrom mapping 0 s

end strings

/-! ## `stripFileName` and `getAPIKey` -/

/-- The local `forbiddenCharacters` of `stripFileName`: the nine characters
backslash, slash, colon, star, question mark, double quote, less, greater,
bar. -/
def forbiddenCharacters : GoString := lit "\\/:*?\"<>|"

/-- The closure `removeForbidden` of `stripFileName`. -/
def removeForbidden (r : Int) : Int :=
  if strings.ContainsRune forbiddenCharacters r then -1 else r

/-- The function `stripFileName`. -/
def stripFileName (filename : GoString) : GoString :=
  strings.Map removeForbidden filename

/-- The function `getAPIKey`, given the content of the embedded file `.env`
(the file is part of the binary, `ReadFile` on it does not fail). -/
def getAPIKey (data : GoString) : GoString :=
  strings.TrimPrefix data (lit "API_KEY=")

/-- The request URL that `main` builds from the key. -/
def apiURL (data : GoString) : GoString :=
  lit "https://api.nasa.gov/planetary/apod?api_key=" ++ getAPIKey data

/-! ## The record, the files and the environment -/

/-- The type `Response`: the decoded APOD record. -/
structure Response where
  Date : GoString
  Explanation : GoString
  HDURL : GoString
  URL : GoString
  Title : GoString
  MediaType : GoString
  deriving DecidableEq

/-- A node of the file tree: a regular file with its content, a directory
with its entries, or a regular file that has several names (hard links):
`ino` is the number of the file, and entries that carry the same `ino` and
content are names of one file. -/
inductive Node where
  | file (content : GoString)
  | dir (entries : List (GoString × Node))
  | hardlink (ino : Nat) (content : GoString)

/-- Whether two nodes are names of one regular file. -/
def sameFile : Node → Node → Bool
  | Node.hardlink i c, Node.hardlink j d => decide (i = j ∧ c = d)
  | _, _ => false

/-- Whether the node is a regular file. -/
def isRegular : Node → Bool
  | Node.dir _ => false
  | _ => true

/-- A directory: names with the nodes they denote.  A name denotes the first
entry that carries it. -/
abbrev Dir := List (GoString × Node)

namespace Dir

/-- The node that `name` denotes in the directory. -/
def find (d : Dir) (name : GoString) : Option Node :=
  match d with
  | [] => none
  | (m, x) :: t => if m = name then some x else find t name

/-- The directory without the name. -/
def remove (d : Dir) (name : GoString) : Dir :=
  d.filter (fun e => decide (e.1 ≠ name))

/-- The directory with `name` denoting `node`, in place of what it denoted. -/
def put (d : Dir) (name : GoString) (node : Node) : Dir :=
  remove d name ++ [(name, node)]

/-- The names of the directory. -/
def names (d : Dir) : List GoString := d.map Prod.fst

end Dir

/-- What `http.Get` hands back when it does not fail: the bytes of the body
that arrive, and whether reading the body ends in an error after them. -/
structure HttpResponse where
  body : GoString
  readErr : Bool

/-- The world outside the program, fixed for a run: the embedded file, the
network, the JSON decoder and the calls the operating system refuses.
`unmarshal body` is the record that `json.Unmarshal` leaves in a zero
`Response` and whether it returns an error.  `fullPath name` is
`path.Join(directoryPath, name)`. -/
structure Env where
  dotEnv : GoString
  fullPath : GoString → GoString
  httpGet : GoString → Option HttpResponse
  unmarshal : GoString → Response × Bool
  statErr : Bool
  mkdirErr : Bool
  readDirErr : Bool
  renameErr : GoString → Bool
  createErr : GoString → Bool
  stdin : GoString

/-- The functions of `main.go` that `main` calls. -/
inductive Func where
  | fetchAPI (api : GoString)
  | downloadImage (r : Response)
  | archiveOldImages (image : GoString)
  | setWallpaper (image : GoString)
  deriving DecidableEq

/-- The observable steps of a run, in order. -/
inductive Event where
  | invoke (f : Func)
  | stdout (text : GoString)
  | httpGet (url : GoString)
  | stat (name : GoString)
  | mkdir (name : GoString)
  | readDir
  | rename (name : GoString)
  | create (name : GoString)
  | write (name : GoString) (bytes : GoString)
  | setDesktopWallpaper (path : GoString)
  deriving DecidableEq

/-- How a function ends: it returns a value, or `log.Fatal` ends the program.
Both carry the working directory as it is then and the steps taken. -/
inductive Outcome (α : Type) where
  | returned (value : α) (fs : Dir) (log : List Event)
  | fatal (msg : String) (fs : Dir) (log : List Event)

namespace Outcome

/-- The steps `pre` happened before the outcome. -/
def after {α : Type} (pre : List Event) : Outcome α → Outcome α
  | returned v fs log => returned v fs (pre ++ log)
  | fatal m fs log => fatal m fs (pre ++ log)

/-- Sequencing: `k` runs on the value and the directory when `o` returned;
a fatal outcome ends the run. -/
def andThen {α β : Type} (o : Outcome α) (k : α → Dir → Outcome β) : Outcome β :=
  match o with
  | returned v fs log => after log (k v fs)
  | fatal m fs log => fatal m fs log

/-- The steps of an outcome. -/
def log {α : Type} : Outcome α → List Event
  | returned _ _ l => l
  | fatal _ _ l => l

end Outcome

/-! ## The operating system (`os`) -/

/-- The name of the archive directory. -/
def archivedName : GoString := lit "archived"

/-- The call `os.ReadDir(".")`: the names of the working directory sorted by
byte order, unless the call fails. -/
def readDir (env : Env) (fs : Dir) : Option (List GoString) :=
  if env.readDirErr then none
  else some ((Dir.names fs).insertionSort (fun a b => a ≤ b))

/-- The call `os.Create(name)` for a name without separators: the file
`name` of the working directory exists and is empty afterwards.  It fails on a
directory and where the system refuses.  (`downloadImage` reaches it only with
a name that the directory does not list, so it never truncates a file that
has other names.) -/
def create (env : Env) (fs : Dir) (name : GoString) : Option Dir :=
  if env.createErr name then none
  else
    match Dir.find fs name with
    | some (Node.dir _) => none
    | _ => some (Dir.put fs name (Node.file []))

/-- The call `os.Rename(oldPath, newPath)` of `archiveOldImages`, where
`oldPath` is the entry `name` of the working directory and `newPath` is
`archived/name`, as `rename(2)` carries it out.  When both are names of one
file the call returns without an error and changes nothing.  Otherwise the
entry moves; a regular file that `archived` holds under the same name is
replaced by a regular file.  The call fails when the source is missing, when
`archived` is not a directory, when the target is a directory, when a
directory would replace a file, and where the system refuses. -/
def renameToArchived (env : Env) (fs : Dir) (name : GoString) : Option Dir :=
  if env.renameErr name ∨ name = archivedName then none
  else
    match Dir.find fs name, Dir.find fs archivedName with
    | some node, some (Node.dir entries) =>
      match Dir.find entries name with
      | none =>
        some (Dir.put (Dir.remove fs name) archivedName (Node.dir (Dir.put entries name node)))
      | some target =>
        if sameFile node target then some fs
        else if isRegular node && isRegular target then
          some (Dir.put (Dir.remove fs name) archivedName (Node.dir (Dir.put entries name node)))
        else none
    | _, _ => none

/-! ## The functions of `main.go` -/

/-- The function `setWallpaper`.  `UTF16PtrFromString` fails on a NUL byte;
the result of the system call is not inspected. -/
def setWallpaper (env : Env) (image : GoString) (fs : Dir) : Outcome Unit :=
  let fullImagePath := env.fullPath image
  if (0 : Byte) ∈ fullImagePath then
    Outcome.fatal "Failed to convert path to correct format: " fs []
  else
    Outcome.returned () fs
      [Event.setDesktopWallpaper fullImagePath,
       Event.stdout (lit "Wallpaper set as '" ++ fullImagePath ++ lit "'\n")]

/-- The first part of `archiveOldImages`: the directory `archived` is created
if `os.Stat` reports that it does not exist. -/
def ensureArchived (env : Env) (fs : Dir) : Outcome Unit :=
  if env.statErr then Outcome.fatal "Failed to get directory: " fs [Event.stat archivedName]
  else
    match Dir.find fs archivedName with
    | some _ => Outcome.returned () fs [Event.stat archivedName]
    | none =>
      if env.mkdirErr then
        Outcome.fatal "Failed to create directory: " fs
          [Event.stat archivedName, Event.mkdir archivedName]
      else
        Outcome.returned () (Dir.put fs archivedName (Node.dir []))
          [Event.stat archivedName, Event.mkdir archivedName,
           Event.stdout (lit "Created directory 'archived'\n")]

/-- The condition of the loop of `archiveOldImages`:
`file.Name() != image && strings.HasSuffix(file.Name(), ".jpg")`. -/
def isStale (image name : GoString) : Bool :=
  (name != image) && strings.HasSuffix name (lit ".jpg")

/-- The loop of `archiveOldImages` over the names that `ReadDir` returned. -/
def archiveLoop (env : Env) (image : GoString) : List GoString → Dir → Outcome Unit
  | [], fs => Outcome.returned () fs []
  | name :: rest, fs =>
    if isStale image name then
      match renameToArchived env fs name with
      | none => Outcome.fatal "Failed to move file: " fs [Event.rename name]
      | some fs1 =>
        Outcome.after
          [Event.rename name, Event.stdout (lit "Archived '" ++ name ++ lit "'\n")]
          (archiveLoop env image rest fs1)
    else archiveLoop env image rest fs

/-- The function `archiveOldImages`. -/
def archiveOldImages (env : Env) (image : GoString) (fs : Dir) : Outcome Unit :=
  (ensureArchived env fs).andThen fun _ fs1 =>
    match readDir env fs1 with
    | none => Outcome.fatal "Failed to read directory: " fs1 [Event.readDir]
    | some files => Outcome.after [Event.readDir] (archiveLoop env image files fs1)

/-- The file name that `downloadImage` builds:
`fmt.Sprintf("[%s] %s.jpg", Response.Date, Response.Title)`. -/
def fileName (r : Response) : GoString :=
  lit "[" ++ r.Date ++ lit "] " ++ r.Title ++ lit ".jpg"

/-- The function `downloadImage`.  The writes of the progress bar go to the
terminal and are left out. -/
def downloadImage (env : Env) (r : Response) (fs : Dir) : Outcome GoString :=
  let strippedFileName := stripFileName (fileName r)
  match readDir env fs with
  | none => Outcome.fatal "Failed to read directory: " fs [Event.readDir]
  | some files =>
    if strippedFileName ∈ files then
      Outcome.returned strippedFileName fs
        [Event.readDir, Event.stdout (lit "Image already downloaded, skipped\n")]
    else
      match env.httpGet r.HDURL with
      | none =>
        Outcome.fatal "Failed to get image from link: " fs [Event.readDir, Event.httpGet r.HDURL]
      | some response =>
        match create env fs strippedFileName with
        | none =>
          Outcome.fatal "Failed to create file: " fs
            [Event.readDir, Event.httpGet r.HDURL, Event.create strippedFileName]
        | some fs1 =>
          let fs2 := Dir.put fs1 strippedFileName (Node.file response.body)
          if response.readErr then
            Outcome.fatal "Failed to write to file: " fs2
              [Event.readDir, Event.httpGet r.HDURL, Event.create strippedFileName,
               Event.write strippedFileName response.body]
          else
            Outcome.returned strippedFileName fs2
              [Event.readDir, Event.httpGet r.HDURL, Event.create strippedFileName,
               Event.write strippedFileName response.body,
               Event.stdout (lit "Image downloaded as '" ++ strippedFileName ++ lit "'\n")]

/-- The function `fetchAPI`.  What `json.Unmarshal` returns is dropped by the
source: only the record it leaves is used. -/
def fetchAPI (env : Env) (api : GoString) (fs : Dir) : Outcome Response :=
  match env.httpGet api with
  | none => Outcome.fatal "Failed to fetch api: " fs [Event.httpGet api]
  | some response =>
    if response.readErr then
      Outcome.fatal "Failed to read response data: " fs [Event.httpGet api]
    else
      Outcome.returned (env.unmarshal response.body).1 fs
        [Event.httpGet api, Event.stdout (lit "API data fetched\n")]

/-- The branch of `main` on the media type. -/
def mainBranch (env : Env) (response : Response) (fs : Dir) : Outcome Unit :=
  if response.MediaType = lit "video" then
    Outcome.returned () fs
      [Event.stdout (lit "Media is a video, skipped\n"),
       Event.stdout (response.URL ++ lit "\n")]
  else
    (Outcome.after [Event.invoke (Func.downloadImage response)]
        (downloadImage env response fs)).andThen fun image fs1 =>
      (Outcome.after [Event.invoke (Func.archiveOldImages image)]
          (archiveOldImages env image fs1)).andThen fun _ fs2 =>
        Outcome.after [Event.invoke (Func.setWallpaper image)] (setWallpaper env image fs2)

/-- The function `main` from the decoded record on: the branch, the
explanation, the prompt and the echo of the line read. -/
def mainFrom (env : Env) (response : Response) (fs : Dir) : Outcome Unit :=
  (mainBranch env response fs).andThen fun _ fs1 =>
    Outcome.returned () fs1
      [Event.stdout (lit "\n " ++ response.Explanation ++ lit "\n"),
       Event.stdout (lit "\nPress any key to exit... "),
       Event.stdout (env.stdin ++ lit "\n")]

/-- The function `main`. -/
def main (env : Env) (fs : Dir) : Outcome Unit :=
  let url := apiURL env.dotEnv
  (Outcome.after [Event.invoke (Func.fetchAPI url)] (fetchAPI env url fs)).andThen
    fun response fs1 => mainFrom env response fs1

/-! ## Closed forms used in the proofs -/

/-- The decoder in closed form: what `decodeRune` returns for each class of
first byte. -/
def decodeFlat (s0 : Byte) (t : GoString) : Int × Nat :=
  if s0.val < 0x80 then ((s0.val : Int), 1)
  else if 0xC2 ≤ s0.val ∧ s0.val < 0xE0 then
    match t with
    | s1 :: _ =>
      if 0x80 ≤ s1.val ∧ s1.val ≤ 0xBF then (((s0.val % 32 * 64 + s1.val % 64 : Nat) : Int), 2)
      else (RuneError, 1)
    | [] => (RuneError, 1)
  else if 0xE0 ≤ s0.val ∧ s0.val < 0xF0 then
    match t with
    | s1 :: s2 :: _ =>
      if (if s0.val = 0xE0 then 0xA0 else 0x80) ≤ s1.val ∧
          s1.val ≤ (if s0.val = 0xED then 0x9F else 0xBF) ∧ 0x80 ≤ s2.val ∧ s2.val ≤ 0xBF then
        (((s0.val % 16 * 4096 + s1.val % 64 * 64 + s2.val % 64 : Nat) : Int), 3)
      else (RuneError, 1)
    | _ => (RuneError, 1)
  else if 0xF0 ≤ s0.val ∧ s0.val < 0xF5 then
    match t with
    | s1 :: s2 :: s3 :: _ =>
      if (if s0.val = 0xF0 then 0x90 else 0x80) ≤ s1.val ∧
          s1.val ≤ (if s0.val = 0xF4 then 0x8F else 0xBF) ∧ 0x80 ≤ s2.val ∧ s2.val ≤ 0xBF ∧
          0x80 ≤ s3.val ∧ s3.val ≤ 0xBF then
        (((s0.val % 8 * 262144 + s1.val % 64 * 4096 + s2.val % 64 * 64 + s3.val % 64 : Nat) : Int), 4)
      else (RuneError, 1)
    | _ => (RuneError, 1)
  else (RuneError, 1)

/-- What `strings.Map` writes for one rune of the input. -/
def emit (mapping : Int → Int) (d : Int × Nat) : GoString :=
  if 0 ≤ mapping d.1 then encodeRune (mapping d.1) else []

/-- The result as the specification describes it: the string `s` with every
occurrence of the nine forbidden characters deleted and all other bytes kept
in their order. -/
def deleteForbidden (s : GoString) : GoString :=
  s.filter (fun b => decide (b ∉ forbiddenCharacters))

/-- The runes that `stripFileName` keeps. -/
def keptRunes (s : GoString) : List Int :=
  ((rangeString s).map Prod.fst).filter (fun r => decide (0 ≤ removeForbidden r))

/-- What `name` denotes inside the directory `archived` of the working
directory, if `archived` is a directory. -/
def archivedFind (fs : Dir) (name : GoString) : Option Node :=
  match Dir.find fs archivedName with
  | some (Node.dir entries) => Dir.find entries name
  | _ => none

/-- Whether the entry `name` of the working directory and the entry `name` of
`archived` are names of one file: then `os.Rename` has nothing to do. -/
def alreadyInArchive (fs : Dir) (name : GoString) : Bool :=
  match Dir.find fs name, archivedFind fs name with
  | some node, some target => sameFile node target
  | _, _ => false

/-- The calls that `main` made, in order. -/
def invocations (log : List Event) : List Func :=
  log.filterMap fun e =>
    match e with
    | Event.invoke f => some f
    | _ => none

/-- The string `s` read rune by rune and written back: valid UTF-8 stays as
it is, every byte of an invalid encoding becomes the three bytes of U+FFFD. -/
def replaceInvalid (s : GoString) : GoString :=
  (rangeString s).flatMap (fun d => encodeRune d.1)

/-! ## Concrete inputs -/

namespace Example

/-- The record with every field empty, which `json.Unmarshal` leaves untouched
when it rejects the body. -/
def zeroResponse : Response :=
  { Date := [], Explanation := [], HDURL := [], URL := [], Title := [], MediaType := [] }

/-- A record for a picture. -/
def picture : Response :=
  { Date := lit "2024-01-02", Explanation := lit "A galaxy.", HDURL := lit "https://x/m31.jpg",
    URL := lit "https://x/m31s.jpg", Title := lit "M31", MediaType := lit "image" }

/-- A record of another media type, without links: `http.Get` fails on the
empty address. -/
def noLink : Response :=
  { Date := lit "2024-01-03", Explanation := lit "A talk.", HDURL := [], URL := [],
    Title := lit "Talk", MediaType := lit "other" }

/-- A run without network: every `http.Get` fails; the system refuses nothing. -/
def offline : Env :=
  { dotEnv := lit "API_KEY=DEMO_KEY", fullPath := fun name => lit "C:/apod/" ++ name,
    httpGet := fun _ => none, unmarshal := fun _ => (zeroResponse, true),
    statErr := false, mkdirErr := false, readDirErr := false,
    renameErr := fun _ => false, createErr := fun _ => false, stdin := lit "\n" }

/-- A run where every request is answered with the body `not json`, on which
`json.Unmarshal` returns a syntax error. -/
def badJson : Env :=
  { offline with httpGet := fun _ => some { body := lit "not json", readErr := false } }

/-- A run where every request is answered with three bytes. -/
def online : Env :=
  { offline with httpGet := fun _ => some { body := [7, 8, 9], readErr := false } }

/-- A working directory with yesterday's and today's picture and a note. -/
def twoPictures : Dir :=
  [(lit "old.jpg", Node.file [1]), (lit "[2024-01-02] M31.jpg", Node.file [2]),
   (lit "notes.txt", Node.file [3])]

/-- A working directory whose stale picture has the name of a file that is
already in the archive. -/
def sameName : Dir :=
  [(lit "a.jpg", Node.file [1]), (lit "archived", Node.dir [(lit "a.jpg", Node.file [2])])]

end Example

/-! # Lemmas -/

theorem first_cases (b : Byte) :
    (b.val < 0x80 ∧ first b = 0xF0) ∨
    ((0x80 ≤ b.val ∧ b.val < 0xC2 ∨ 0xF5 ≤ b.val) ∧ first b = 0xF1) ∨
    (0xC2 ≤ b.val ∧ b.val < 0xE0 ∧ first b = 0x02) ∨
    (b.val = 0xE0 ∧ first b = 0x13) ∨
    ((0xE1 ≤ b.val ∧ b.val < 0xED ∨ b.val = 0xEE ∨ b.val = 0xEF) ∧ first b = 0x03) ∨
    (b.val = 0xED ∧ first b = 0x23) ∨
    (b.val = 0xF0 ∧ first b = 0x34) ∨
    (0xF1 ≤ b.val ∧ b.val < 0xF4 ∧ first b = 0x04) ∨
    (b.val = 0xF4 ∧ first b = 0x44) := by
  have hb := b.isLt
  unfold first as xx
  by_cases h1 : b.val < 0x80
  · left; simp [h1]
  by_cases h2 : b.val < 0xC2
  · right; left; simp [h1, h2]; omega
  by_cases h3 : b.val < 0xE0
  · right; right; left; simp [h1, h2, h3]; omega
  by_cases h4 : b.val = 0xE0
  · right; right; right; left; simp [h4]
  by_cases h5 : b.val < 0xED
  · right; right; right; right; left; simp [h1, h2, h3, h4, h5]; omega
  by_cases h6 : b.val = 0xED
  · right; right; right; right; right; left; simp [h6]
  by_cases h7 : b.val < 0xF0
  · right; right; right; right; left; simp [h1, h2, h3, h4, h5, h6, h7]; omega
  by_cases h8 : b.val = 0xF0
  · right; right; right; right; right; right; left; simp [h8]
  by_cases h9 : b.val < 0xF4
  · right; right; right; right; right; right; right; left
    simp [h1, h2, h3, h4, h5, h6, h7, h8, h9]; omega
  by_cases h10 : b.val = 0xF4
  · right; right; right; right; right; right; right; right; simp [h10]
  · right; left; simp [h1, h2, h3, h4, h5, h6, h7, h8, h9, h10]; omega

theorem decodeRune_cons (s0 : Byte) (t : GoString) :
    decodeRune (s0 :: t) = decodeFlat s0 t := by
  simp only [decodeRune, decodeFlat]
  rcases first_cases s0 with h | h | h | h | h | h | h | h | h
  · simp [h, as]
  · have h1 : ¬ (s0.val < 0x80) := by omega
    have h2 : ¬ (0xC2 ≤ s0.val ∧ s0.val < 0xE0) := by omega
    have h3 : ¬ (0xE0 ≤ s0.val ∧ s0.val < 0xF0) := by omega
    have h4 : ¬ (0xF0 ≤ s0.val ∧ s0.val < 0xF5) := by omega
    simp [h.2, as, h1, h2, h3, h4]
  · obtain ⟨ha, hb, hf⟩ := h
    have h1 : ¬ (s0.val < 0x80) := by omega
    rcases t with _ | ⟨s1, t⟩
    · simp [hf, as, h1, ha, hb]
    · simp [hf, as, h1, ha, hb, acceptRanges]
      split_ifs <;> first | rfl | omega
  · obtain ⟨ha, hf⟩ := h
    have h1 : ¬ (s0.val < 0x80) := by omega
    have h2 : ¬ (0xC2 ≤ s0.val ∧ s0.val < 0xE0) := by omega
    have h3 : 0xE0 ≤ s0.val ∧ s0.val < 0xF0 := by omega
    rcases t with _ | ⟨s1, _ | ⟨s2, t⟩⟩
    · simp [hf, as, h1, h2, h3]
    · simp [hf, as, h1, h2, h3, acceptRanges]
    · simp [hf, as, h1, h2, h3, acceptRanges]
      split_ifs <;> first | rfl | omega
  · obtain ⟨ha, hf⟩ := h
    have h1 : ¬ (s0.val < 0x80) := by omega
    have h2 : ¬ (0xC2 ≤ s0.val ∧ s0.val < 0xE0) := by omega
    have h3 : 0xE0 ≤ s0.val ∧ s0.val < 0xF0 := by omega
    rcases t with _ | ⟨s1, _ | ⟨s2, t⟩⟩
    · simp [hf, as, h1, h2, h3]
    · simp [hf, as, h1, h2, h3, acceptRanges]
    · simp [hf, as, h1, h2, h3, acceptRanges]
      split_ifs <;> first | rfl | omega
  · obtain ⟨ha, hf⟩ := h
    have h1 : ¬ (s0.val < 0x80) := by omega
    have h2 : ¬ (0xC2 ≤ s0.val ∧ s0.val < 0xE0) := by omega
    have h3 : 0xE0 ≤ s0.val ∧ s0.val < 0xF0 := by omega
    rcases t with _ | ⟨s1, _ | ⟨s2, t⟩⟩
    · simp [hf, as, h1, h2, h3]
    · simp [hf, as, h1, h2, h3, acceptRanges]
    · simp [hf, as, h1, h2, h3, acceptRanges]
      split_ifs <;> first | rfl | omega
  · obtain ⟨ha, hf⟩ := h
    have h1 : ¬ (s0.val < 0x80) := by omega
    have h2 : ¬ (0xC2 ≤ s0.val ∧ s0.val < 0xE0) := by omega
    have h3 : ¬ (0xE0 ≤ s0.val ∧ s0.val < 0xF0) := by omega
    have h4 : 0xF0 ≤ s0.val ∧ s0.val < 0xF5 := by omega
    rcases t with _ | ⟨s1, _ | ⟨s2, _ | ⟨s3, t⟩⟩⟩
    · simp [hf, as, h1, h2, h3, h4]
    · simp [hf, as, h1, h2, h3, h4, acceptRanges]
    · simp [hf, as, h1, h2, h3, h4, acceptRanges]
    · simp [hf, as, h1, h2, h3, h4, acceptRanges]
      split_ifs <;> first | rfl | omega
  · obtain ⟨ha, hb, hf⟩ := h
    have h1 : ¬ (s0.val < 0x80) := by omega
    have h2 : ¬ (0xC2 ≤ s0.val ∧ s0.val < 0xE0) := by omega
    have h3 : ¬ (0xE0 ≤ s0.val ∧ s0.val < 0xF0) := by omega
    have h4 : 0xF0 ≤ s0.val ∧ s0.val < 0xF5 := by omega
    rcases t with _ | ⟨s1, _ | ⟨s2, _ | ⟨s3, t⟩⟩⟩
    · simp [hf, as, h1, h2, h3, h4]
    · simp [hf, as, h1, h2, h3, h4, acceptRanges]
    · simp [hf, as, h1, h2, h3, h4, acceptRanges]
    · simp [hf, as, h1, h2, h3, h4, acceptRanges]
      split_ifs <;> first | rfl | omega
  · obtain ⟨ha, hf⟩ := h
    have h1 : ¬ (s0.val < 0x80) := by omega
    have h2 : ¬ (0xC2 ≤ s0.val ∧ s0.val < 0xE0) := by omega
    have h3 : ¬ (0xE0 ≤ s0.val ∧ s0.val < 0xF0) := by omega
    have h4 : 0xF0 ≤ s0.val ∧ s0.val < 0xF5 := by omega
    rcases t with _ | ⟨s1, _ | ⟨s2, _ | ⟨s3, t⟩⟩⟩
    · simp [hf, as, h1, h2, h3, h4]
    · simp [hf, as, h1, h2, h3, h4, acceptRanges]
    · simp [hf, as, h1, h2, h3, h4, acceptRanges]
    · simp [hf, as, h1, h2, h3, h4, acceptRanges]
      split_ifs <;> first | rfl | omega


/-- The decoder and the encoder on known encodings: the euro sign, an emoji,
an overlong encoding, a surrogate, a lone continuation byte and a value above
`MaxRune`. -/
theorem utf8_known_values :
    decodeRune [0xE2, 0x82, 0xAC] = (0x20AC, 3) ∧ encodeRune 0x20AC = [0xE2, 0x82, 0xAC] ∧
      decodeRune [0xF0, 0x9F, 0x98, 0x80, 0x41] = (0x1F600, 4) ∧
      encodeRune 0x1F600 = [0xF0, 0x9F, 0x98, 0x80] ∧
      decodeRune [0xC0, 0x80] = (RuneError, 1) ∧ decodeRune [0xED, 0xA0, 0x80] = (RuneError, 1) ∧
      decodeRune [0x80] = (RuneError, 1) ∧ decodeRune [0xF4, 0x90, 0x80, 0x80] = (RuneError, 1) ∧
      encodeRune 0xD800 = [0xEF, 0xBF, 0xBD] ∧ encodeRune (-1) = [0xEF, 0xBF, 0xBD] ∧
      lit "é" = [0xC3, 0xA9] ∧
      rangeString [0x41, 0xC3, 0xA9, 0xFF, 0x42] = [(0x41, 1), (0xE9, 2), (RuneError, 1), (0x42, 1)] := by
  decide

theorem byteOf_val (n : Nat) : (byteOf n).val = n % 256 := by
  simp [byteOf, Fin.ofNat]

theorem byteOf_eq {n : Nat} {b : Byte} (h : n = b.val) : byteOf n = b := by
  apply Fin.ext
  rw [byteOf_val, h]
  exact Nat.mod_eq_of_lt b.isLt

theorem decodeRune_width_pos (s0 : Byte) (t : GoString) : 1 ≤ (decodeRune (s0 :: t)).2 := by
  rw [decodeRune_cons]
  unfold decodeFlat
  (repeat' split) <;> simp

theorem decodeRune_width_le (s : GoString) : (decodeRune s).2 ≤ s.length := by
  rcases s with _ | ⟨s0, t⟩
  · simp [decodeRune]
  · rw [decodeRune_cons]
    unfold decodeFlat
    (repeat' split) <;> simp

/-- A rune that `decodeRune` returns is a Unicode scalar value. -/
theorem decodeRune_valid (s : GoString) :
    0 ≤ (decodeRune s).1 ∧ (decodeRune s).1 ≤ MaxRune ∧
      ¬ (0xD800 ≤ (decodeRune s).1 ∧ (decodeRune s).1 ≤ 0xDFFF) := by
  rcases s with _ | ⟨s0, t⟩
  · simp [decodeRune, RuneError, MaxRune]
  · rw [decodeRune_cons]
    have h0 := s0.isLt
    unfold decodeFlat
    (repeat' split) <;> dsimp only [RuneError, MaxRune] <;> omega


/-- The encoder on a scalar value given as a natural number. -/
theorem encodeRune_natCast (n : Nat) (h : n ≤ 0x10FFFF) (hs : ¬ (0xD800 ≤ n ∧ n ≤ 0xDFFF)) :
    encodeRune (n : Int) =
      if n ≤ 0x7F then [byteOf n]
      else if n ≤ 0x7FF then [byteOf (0xC0 + n / 64), byteOf (0x80 + n % 64)]
      else if n ≤ 0xFFFF then
        [byteOf (0xE0 + n / 4096), byteOf (0x80 + n / 64 % 64), byteOf (0x80 + n % 64)]
      else
        [byteOf (0xF0 + n / 262144), byteOf (0x80 + n / 4096 % 64),
         byteOf (0x80 + n / 64 % 64), byteOf (0x80 + n % 64)] := by
  have h1 : ¬ ((n : Int) < 0 ∨ MaxRune < (n : Int) ∨ (0xD800 ≤ (n : Int) ∧ (n : Int) ≤ 0xDFFF)) := by
    dsimp only [MaxRune]; omega
  simp only [encodeRune, if_neg h1, Int.toNat_ofNat]

theorem encodeRune_one (a : Byte) (ha : a.val < 0x80) : encodeRune (a.val : Int) = [a] := by
  rw [encodeRune_natCast _ (by omega) (by omega), if_pos (by omega), byteOf_eq rfl]

theorem encodeRune_two (a b : Byte) (ha : 0xC2 ≤ a.val ∧ a.val < 0xE0)
    (hb : 0x80 ≤ b.val ∧ b.val ≤ 0xBF) :
    encodeRune ((a.val % 32 * 64 + b.val % 64 : Nat) : Int) = [a, b] := by
  rw [encodeRune_natCast _ (by omega) (by omega), if_neg (by omega), if_pos (by omega),
    byteOf_eq (b := a) (by omega), byteOf_eq (b := b) (by omega)]

theorem encodeRune_three (a b c : Byte) (ha : 0xE0 ≤ a.val ∧ a.val < 0xF0)
    (hb : (if a.val = 0xE0 then 0xA0 else 0x80) ≤ b.val ∧
      b.val ≤ (if a.val = 0xED then 0x9F else 0xBF))
    (hc : 0x80 ≤ c.val ∧ c.val ≤ 0xBF) :
    encodeRune ((a.val % 16 * 4096 + b.val % 64 * 64 + c.val % 64 : Nat) : Int) = [a, b, c] := by
  have hb1 : 0x80 ≤ b.val ∧ b.val ≤ 0xBF := by split_ifs at hb <;> omega
  have hb2 : a.val = 0xE0 → 0xA0 ≤ b.val := by intro h; simp [h] at hb; omega
  have hb3 : a.val = 0xED → b.val ≤ 0x9F := by intro h; simp [h] at hb; omega
  rw [encodeRune_natCast _ (by omega) (by omega), if_neg (by omega), if_neg (by omega),
    if_pos (by omega), byteOf_eq (b := a) (by omega), byteOf_eq (b := b) (by omega),
    byteOf_eq (b := c) (by omega)]

theorem encodeRune_four (a b c d : Byte) (ha : 0xF0 ≤ a.val ∧ a.val < 0xF5)
    (hb : (if a.val = 0xF0 then 0x90 else 0x80) ≤ b.val ∧
      b.val ≤ (if a.val = 0xF4 then 0x8F else 0xBF))
    (hc : 0x80 ≤ c.val ∧ c.val ≤ 0xBF) (hd : 0x80 ≤ d.val ∧ d.val ≤ 0xBF) :
    encodeRune ((a.val % 8 * 262144 + b.val % 64 * 4096 + c.val % 64 * 64 + d.val % 64 : Nat) : Int)
      = [a, b, c, d] := by
  have hb1 : 0x80 ≤ b.val ∧ b.val ≤ 0xBF := by split_ifs at hb <;> omega
  have hb2 : a.val = 0xF0 → 0x90 ≤ b.val := by intro h; simp [h] at hb; omega
  have hb3 : a.val = 0xF4 → b.val ≤ 0x8F := by intro h; simp [h] at hb; omega
  rw [encodeRune_natCast _ (by omega) (by omega), if_neg (by omega), if_neg (by omega),
    if_neg (by omega), byteOf_eq (b := a) (by omega), byteOf_eq (b := b) (by omega),
    byteOf_eq (b := c) (by omega), byteOf_eq (b := d) (by omega)]

/-- Unless the decoder reports an invalid encoding, the bytes it consumed are
the encoding of the rune it returned. -/
theorem take_decodeRune (s0 : Byte) (t : GoString) :
    decodeRune (s0 :: t) = (RuneError, 1) ∨
      (s0 :: t).take (decodeRune (s0 :: t)).2 = encodeRune (decodeRune (s0 :: t)).1 := by
  rw [decodeRune_cons]
  unfold decodeFlat
  by_cases h1 : s0.val < 0x80
  · rw [if_pos h1]; right; rw [encodeRune_one s0 h1]; rfl
  rw [if_neg h1]
  by_cases h2 : 0xC2 ≤ s0.val ∧ s0.val < 0xE0
  · rw [if_pos h2]
    rcases t with _ | ⟨s1, t⟩
    · left; rfl
    · dsimp only
      by_cases hb : 0x80 ≤ s1.val ∧ s1.val ≤ 0xBF
      · rw [if_pos hb]; right; dsimp only; rw [encodeRune_two _ _ h2 hb]; rfl
      · rw [if_neg hb]; left; rfl
  rw [if_neg h2]
  by_cases h3 : 0xE0 ≤ s0.val ∧ s0.val < 0xF0
  · rw [if_pos h3]
    rcases t with _ | ⟨s1, _ | ⟨s2, t⟩⟩
    · left; rfl
    · left; rfl
    · dsimp only
      by_cases hb : (if s0.val = 0xE0 then 0xA0 else 0x80) ≤ s1.val ∧
          s1.val ≤ (if s0.val = 0xED then 0x9F else 0xBF) ∧ 0x80 ≤ s2.val ∧ s2.val ≤ 0xBF
      · rw [if_pos hb]
        right; dsimp only
        rw [encodeRune_three _ _ _ h3 ⟨hb.1, hb.2.1⟩ hb.2.2]; rfl
      · rw [if_neg hb]; left; rfl
  rw [if_neg h3]
  by_cases h4 : 0xF0 ≤ s0.val ∧ s0.val < 0xF5
  · rw [if_pos h4]
    rcases t with _ | ⟨s1, _ | ⟨s2, _ | ⟨s3, t⟩⟩⟩
    · left; rfl
    · left; rfl
    · left; rfl
    · dsimp only
      by_cases hb : (if s0.val = 0xF0 then 0x90 else 0x80) ≤ s1.val ∧
          s1.val ≤ (if s0.val = 0xF4 then 0x8F else 0xBF) ∧ 0x80 ≤ s2.val ∧ s2.val ≤ 0xBF ∧
          0x80 ≤ s3.val ∧ s3.val ≤ 0xBF
      · rw [if_pos hb]
        right; dsimp only
        rw [encodeRune_four _ _ _ _ h4 ⟨hb.1, hb.2.1⟩ ⟨hb.2.2.1, hb.2.2.2.1⟩ hb.2.2.2.2]; rfl
      · rw [if_neg hb]; left; rfl
  · rw [if_neg h4]; left; rfl


/-- Decoding reads back an encoded scalar value, whatever follows it. -/
theorem decodeRune_encodeRune (n : Nat) (h : n ≤ 0x10FFFF) (hs : ¬ (0xD800 ≤ n ∧ n ≤ 0xDFFF))
    (t : GoString) :
    decodeRune (encodeRune (n : Int) ++ t) = ((n : Int), (encodeRune (n : Int)).length) := by
  rw [encodeRune_natCast n h hs]
  by_cases c1 : n ≤ 0x7F
  · rw [if_pos c1]
    simp only [List.cons_append, List.nil_append, decodeRune_cons, decodeFlat, byteOf_val]
    rw [if_pos (by omega)]
    simp only [List.length_cons, List.length_nil, Prod.mk.injEq, Nat.cast_inj, and_true,
      Nat.reduceAdd]
    omega
  rw [if_neg c1]
  by_cases c2 : n ≤ 0x7FF
  · rw [if_pos c2]
    simp only [List.cons_append, List.nil_append, decodeRune_cons, decodeFlat, byteOf_val]
    rw [if_neg (by omega), if_pos (by omega), if_pos (by omega)]
    simp only [List.length_cons, List.length_nil, Prod.mk.injEq, Nat.cast_inj, and_true,
      Nat.reduceAdd]
    omega
  rw [if_neg c2]
  by_cases c3 : n ≤ 0xFFFF
  · rw [if_pos c3]
    simp only [List.cons_append, List.nil_append, decodeRune_cons, decodeFlat, byteOf_val]
    rw [if_neg (by omega), if_neg (by omega), if_pos (by omega), if_pos (by split_ifs <;> omega)]
    simp only [List.length_cons, List.length_nil, Prod.mk.injEq, Nat.cast_inj, and_true,
      Nat.reduceAdd]
    omega
  · rw [if_neg c3]
    simp only [List.cons_append, List.nil_append, decodeRune_cons, decodeFlat, byteOf_val]
    rw [if_neg (by omega), if_neg (by omega), if_neg (by omega), if_pos (by omega),
      if_pos (by split_ifs <;> omega)]
    simp only [List.length_cons, List.length_nil, Prod.mk.injEq, Nat.cast_inj, and_true,
      Nat.reduceAdd]
    omega


/-! ### The `range` loop -/

theorem rangeFrom_skip (k : Nat) (t : GoString) : rangeFrom k t = rangeFrom 0 (t.drop k) := by
  induction t generalizing k with
  | nil => simp [rangeFrom]
  | cons b t ih =>
    cases k with
    | zero => rfl
    | succ k => simp only [rangeFrom, List.drop_succ_cons]; exact ih k

theorem rangeString_nil : rangeString [] = [] := rfl

/-- One step of the `range` loop: decode a rune, continue behind it. -/
theorem rangeString_cons (b : Byte) (t : GoString) :
    rangeString (b :: t) =
      decodeRune (b :: t) :: rangeString ((b :: t).drop (decodeRune (b :: t)).2) := by
  have hw := decodeRune_width_pos b t
  obtain ⟨w, hw2⟩ : ∃ w, (decodeRune (b :: t)).2 = w + 1 := ⟨(decodeRune (b :: t)).2 - 1, by omega⟩
  simp only [rangeString, rangeFrom]
  rw [rangeFrom_skip, hw2]
  simp

theorem drop_decodeRune_length (b : Byte) (t : GoString) :
    ((b :: t).drop (decodeRune (b :: t)).2).length < (b :: t).length := by
  have hw := decodeRune_width_pos b t
  simp only [List.length_drop, List.length_cons]
  omega

/-- The `range` loop over an encoded scalar value followed by `t`. -/
theorem rangeString_encodeRune_append (n : Nat) (h : n ≤ 0x10FFFF)
    (hs : ¬ (0xD800 ≤ n ∧ n ≤ 0xDFFF)) (t : GoString) :
    rangeString (encodeRune (n : Int) ++ t) =
      ((n : Int), (encodeRune (n : Int)).length) :: rangeString t := by
  have hd := decodeRune_encodeRune n h hs t
  have hne : encodeRune (n : Int) ≠ [] := by
    rw [encodeRune_natCast n h hs]; split_ifs <;> simp
  obtain ⟨b, e, he⟩ : ∃ b e, encodeRune (n : Int) = b :: e := by
    cases hx : encodeRune (n : Int) with
    | nil => exact absurd hx hne
    | cons b e => exact ⟨b, e, rfl⟩
  rw [he] at hd ⊢
  rw [List.cons_append] at hd ⊢
  rw [rangeString_cons, hd]
  simp


/-! ### `strings.Map` -/

theorem encodeRune_ascii (r : Int) (h0 : 0 ≤ r) (h1 : r < RuneSelf) :
    encodeRune r = [byteOf r.toNat] := by
  unfold RuneSelf at h1
  unfold encodeRune
  rw [if_neg (by dsimp only [MaxRune]; omega)]
  dsimp only
  rw [if_pos (by omega)]

theorem mapRest_eq (mapping : Int → Int) (s : GoString) :
    strings.mapRest mapping s = (rangeString s).flatMap (emit mapping) := by
  unfold strings.mapRest
  congr 1
  funext d
  unfold emit
  dsimp only
  by_cases h0 : 0 ≤ mapping d.1
  · rw [if_pos h0, if_pos h0]
    by_cases h1 : mapping d.1 < RuneSelf
    · rw [if_pos h1, encodeRune_ascii _ h0 h1]
    · rw [if_neg h1]
  · rw [if_neg h0, if_neg h0]

theorem mapFrom_skip (mapping : Int → Int) (k : Nat) (t : GoString) :
    strings.mapFrom mapping k t = t.take k ++ strings.mapFrom mapping 0 (t.drop k) := by
  induction t generalizing k with
  | nil => simp [strings.mapFrom]
  | cons b t ih =>
    cases k with
    | zero => simp
    | succ k =>
      simp only [strings.mapFrom, List.take_succ_cons, List.drop_succ_cons, List.cons_append]
      rw [ih k]

/-- The two loops of `strings.Map` together: every rune of the input is
mapped, and written in its UTF-8 encoding unless the result is negative. -/
theorem Map_eq_flatMap (mapping : Int → Int) (s : GoString) :
    strings.Map mapping s = (rangeString s).flatMap (emit mapping) := by
  suffices H : ∀ n (s : GoString), s.length = n →
      strings.Map mapping s = (rangeString s).flatMap (emit mapping) from H _ s rfl
  intro n
  induction n using Nat.strong_induction_on with
  | _ n ih =>
    intro s hn
    rcases s with _ | ⟨b, t⟩
    · rfl
    · have hw := decodeRune_width_pos b t
      obtain ⟨w, hw2⟩ : ∃ w, (decodeRune (b :: t)).2 = w + 1 :=
        ⟨(decodeRune (b :: t)).2 - 1, by omega⟩
      have hlen := drop_decodeRune_length b t
      rw [rangeString_cons, List.flatMap_cons]
      unfold strings.Map
      simp only [strings.mapFrom]
      by_cases hc : mapping (decodeRune (b :: t)).1 = (decodeRune (b :: t)).1 ∧
          ¬ ((decodeRune (b :: t)).1 = RuneError ∧ (decodeRune (b :: t)).2 = 1)
      · rw [if_pos hc, mapFrom_skip]
        have hv := decodeRune_valid (b :: t)
        have htake : (b :: t).take (decodeRune (b :: t)).2
            = encodeRune (decodeRune (b :: t)).1 := by
          rcases take_decodeRune b t with h | h
          · exact absurd ⟨congrArg Prod.fst h, congrArg Prod.snd h⟩ hc.2
          · exact h
        have hrec := ih _ (hn ▸ hlen) ((b :: t).drop (decodeRune (b :: t)).2) rfl
        unfold strings.Map at hrec
        rw [← hrec]
        unfold emit
        rw [hc.1, if_pos hv.1, ← htake, hw2]
        simp
      · rw [if_neg hc, mapRest_eq]
        unfold emit
        rw [hw2]
        simp


/-! ### `strings.ContainsRune` on the forbidden characters -/

theorem indexByteFrom_nonneg (c : Byte) (s : GoString) (i : Nat) :
    0 ≤ strings.indexByteFrom c s i ↔ c ∈ s := by
  induction s generalizing i with
  | nil => simp [strings.indexByteFrom]
  | cons b t ih =>
    simp only [strings.indexByteFrom, List.mem_cons]
    by_cases h : b = c
    · simp [h]
    · rw [if_neg h, ih]
      constructor
      · intro hc; exact Or.inr hc
      · rintro (hc | hc)
        · exact absurd hc.symm h
        · exact hc

theorem HasPrefix_subset (s pre : GoString) (h : strings.HasPrefix s pre = true) :
    ∀ a ∈ pre, a ∈ s := by
  simp only [strings.HasPrefix, Bool.and_eq_true, decide_eq_true_eq, beq_iff_eq] at h
  intro a ha
  rw [← h.2] at ha
  exact List.mem_of_mem_take ha

theorem indexFrom_nonneg (substr s : GoString) (i : Nat) (h : 0 ≤ strings.indexFrom substr s i) :
    ∀ a ∈ substr, a ∈ s := by
  induction s generalizing i with
  | nil =>
    simp only [strings.indexFrom] at h
    by_cases he : substr = []
    · simp [he]
    · rw [if_neg he] at h; omega
  | cons b t ih =>
    simp only [strings.indexFrom] at h
    by_cases hp : strings.HasPrefix (b :: t) substr = true
    · exact HasPrefix_subset _ _ hp
    · rw [if_neg hp] at h
      intro a ha
      exact List.mem_cons_of_mem _ (ih _ h a ha)

/-- Outside ASCII every byte of an encoding has its high bit set. -/
theorem encodeRune_high (r : Int) (h : ¬ (0 ≤ r ∧ r < 0x80)) :
    ∀ b ∈ encodeRune r, 0x80 ≤ b.val := by
  unfold encodeRune
  by_cases he : r < 0 ∨ MaxRune < r ∨ (0xD800 ≤ r ∧ r ≤ 0xDFFF)
  · rw [if_pos he]
    intro b hb
    simp only [List.mem_cons, List.mem_singleton, List.not_mem_nil, or_false] at hb
    rcases hb with hb | hb | hb <;> subst hb <;> decide
  · rw [if_neg he]
    dsimp only [MaxRune] at he
    dsimp only
    intro b hb
    split_ifs at hb
    · simp only [List.mem_singleton] at hb
      subst hb; rw [byteOf_val]; omega
    · simp only [List.mem_cons, List.mem_singleton, List.not_mem_nil, or_false] at hb
      rcases hb with hb | hb <;> subst hb <;> rw [byteOf_val] <;> omega
    · simp only [List.mem_cons, List.mem_singleton, List.not_mem_nil, or_false] at hb
      rcases hb with hb | hb | hb <;> subst hb <;> rw [byteOf_val] <;> omega
    · simp only [List.mem_cons, List.mem_singleton, List.not_mem_nil, or_false] at hb
      rcases hb with hb | hb | hb | hb <;> subst hb <;> rw [byteOf_val] <;> omega

theorem encodeRune_ne_nil (r : Int) : encodeRune r ≠ [] := by
  unfold encodeRune
  dsimp only
  split_ifs <;> exact List.cons_ne_nil _ _

/-- The nine forbidden characters as bytes: backslash, slash, colon, star,
question mark, double quote, less, greater, bar. -/
theorem forbiddenCharacters_eq :
    forbiddenCharacters = [0x5C, 0x2F, 0x3A, 0x2A, 0x3F, 0x22, 0x3C, 0x3E, 0x7C] := by
  decide

theorem forbiddenCharacters_ascii : ∀ b ∈ forbiddenCharacters, b.val < 0x80 := by
  rw [forbiddenCharacters_eq]
  intro b hb
  simp only [List.mem_cons, List.mem_singleton, List.not_mem_nil, or_false] at hb
  rcases hb with hb | hb | hb | hb | hb | hb | hb | hb | hb <;> subst hb <;> decide

/-- The closure `removeForbidden` drops exactly the ASCII runes whose byte is
one of the nine forbidden characters. -/
theorem ContainsRune_forbidden (r : Int) :
    strings.ContainsRune forbiddenCharacters r = true ↔
      (0 ≤ r ∧ r < 0x80 ∧ byteOf r.toNat ∈ forbiddenCharacters) := by
  simp only [strings.ContainsRune, strings.IndexRune, decide_eq_true_eq, RuneSelf]
  by_cases h1 : 0 ≤ r ∧ r < 0x80
  · rw [if_pos h1, indexByteFrom_nonneg]
    constructor
    · intro h; exact ⟨h1.1, h1.2, h⟩
    · intro h; exact h.2.2
  · rw [if_neg h1]
    have hno : ¬ (0 ≤ r ∧ r < 0x80 ∧ byteOf r.toNat ∈ forbiddenCharacters) :=
      fun h => h1 ⟨h.1, h.2.1⟩
    simp only [hno, iff_false, not_le]
    by_cases h2 : r = RuneError
    · rw [if_pos h2, forbiddenCharacters_eq]; decide
    · rw [if_neg h2]
      by_cases h3 : (!strings.ValidRune r) = true
      · rw [if_pos h3]; decide
      · rw [if_neg h3]
        by_contra hc
        have hsub := indexFrom_nonneg _ _ _ (not_lt.mp hc)
        obtain ⟨b, e, hbe⟩ : ∃ b e, encodeRune r = b :: e := by
          cases hx : encodeRune r with
          | nil => exact absurd hx (encodeRune_ne_nil r)
          | cons b e => exact ⟨b, e, rfl⟩
        have hb1 : b ∈ encodeRune r := by rw [hbe]; exact List.mem_cons_self _ _
        have := encodeRune_high r h1 b hb1
        have := forbiddenCharacters_ascii b (hsub b hb1)
        omega


/-! ### `stripFileName` -/

theorem removeForbidden_of_contains (r : Int)
    (h : 0 ≤ r ∧ r < 0x80 ∧ byteOf r.toNat ∈ forbiddenCharacters) : removeForbidden r = -1 := by
  unfold removeForbidden
  rw [if_pos ((ContainsRune_forbidden r).mpr h)]

theorem removeForbidden_of_not_contains (r : Int)
    (h : ¬ (0 ≤ r ∧ r < 0x80 ∧ byteOf r.toNat ∈ forbiddenCharacters)) : removeForbidden r = r := by
  unfold removeForbidden
  rw [if_neg (fun hc => h ((ContainsRune_forbidden r).mp hc))]

/-- For one rune: what `strings.Map removeForbidden` writes is the encoding of
the rune without the forbidden bytes. -/
theorem emit_removeForbidden (d : Int × Nat) (h0 : 0 ≤ d.1) :
    emit removeForbidden d = deleteForbidden (encodeRune d.1) := by
  unfold emit deleteForbidden
  by_cases ha : d.1 < 0x80
  · rw [encodeRune_ascii d.1 h0 ha]
    by_cases hf : byteOf d.1.toNat ∈ forbiddenCharacters
    · rw [removeForbidden_of_contains d.1 ⟨h0, ha, hf⟩]
      simp [hf]
    · rw [removeForbidden_of_not_contains d.1 (fun h => hf h.2.2), if_pos h0,
        encodeRune_ascii d.1 h0 ha]
      simp [hf]
  · rw [removeForbidden_of_not_contains d.1 (fun h => ha h.2.1), if_pos h0]
    symm
    rw [List.filter_eq_self]
    intro b hb
    have h1 := encodeRune_high d.1 (fun h => ha h.2) b hb
    simp only [decide_eq_true_eq]
    intro hf
    have := forbiddenCharacters_ascii b hf
    omega

/-- Every rune of the `range` loop is a Unicode scalar value. -/
theorem rangeString_valid (s : GoString) :
    ∀ d ∈ rangeString s, 0 ≤ d.1 ∧ d.1 ≤ MaxRune ∧ ¬ (0xD800 ≤ d.1 ∧ d.1 ≤ 0xDFFF) := by
  suffices H : ∀ n (s : GoString), s.length = n →
      ∀ d ∈ rangeString s, 0 ≤ d.1 ∧ d.1 ≤ MaxRune ∧ ¬ (0xD800 ≤ d.1 ∧ d.1 ≤ 0xDFFF) from H _ s rfl
  intro n
  induction n using Nat.strong_induction_on with
  | _ n ih =>
    intro s hn d hd
    rcases s with _ | ⟨b, t⟩
    · simp [rangeString_nil] at hd
    · rw [rangeString_cons, List.mem_cons] at hd
      rcases hd with hd | hd
      · rw [hd]; exact decodeRune_valid _
      · exact ih _ (hn ▸ drop_decodeRune_length b t) _ rfl d hd

theorem deleteForbidden_flatMap {α : Type} (f : α → GoString) (l : List α) :
    deleteForbidden (l.flatMap f) = l.flatMap (fun a => deleteForbidden (f a)) := by
  induction l with
  | nil => rfl
  | cons a l ih =>
    simp only [List.flatMap_cons]
    rw [← ih]
    unfold deleteForbidden
    rw [List.filter_append]

theorem flatMap_congr_mem {α : Type} (f g : α → GoString) (l : List α)
    (h : ∀ a ∈ l, f a = g a) : l.flatMap f = l.flatMap g := by
  induction l with
  | nil => rfl
  | cons a l ih =>
    simp only [List.flatMap_cons]
    rw [h a (List.mem_cons_self _ _), ih (fun x hx => h x (List.mem_cons_of_mem _ hx))]

/-- The function `stripFileName` rune by rune. -/
theorem stripFileName_eq_flatMap (s : GoString) :
    stripFileName s = (rangeString s).flatMap (fun d => deleteForbidden (encodeRune d.1)) := by
  unfold stripFileName
  rw [Map_eq_flatMap]
  exact flatMap_congr_mem _ _ _ (fun d hd => emit_removeForbidden d (rangeString_valid s d hd).1)

/-- A valid UTF-8 string is the concatenation of the encodings of its runes. -/
theorem eq_flatMap_encodeRune_of_valid (s : GoString) (hv : validString s = true) :
    s = (rangeString s).flatMap (fun d => encodeRune d.1) := by
  suffices H : ∀ n (s : GoString), s.length = n → validString s = true →
      s = (rangeString s).flatMap (fun d => encodeRune d.1) from H _ s rfl hv
  intro n
  induction n using Nat.strong_induction_on with
  | _ n ih =>
    intro s hn hv
    rcases s with _ | ⟨b, t⟩
    · rfl
    · unfold validString at hv
      rw [rangeString_cons, List.all_cons, Bool.and_eq_true] at hv
      rw [rangeString_cons, List.flatMap_cons]
      have hrec := ih _ (hn ▸ drop_decodeRune_length b t) _ rfl hv.2
      rw [← hrec]
      rcases take_decodeRune b t with h | h
      · rw [h] at hv
        simp at hv
      · rw [← h, List.take_append_drop]


/-- On valid UTF-8, `stripFileName` is the deletion of the forbidden bytes. -/
theorem stripFileName_of_valid (s : GoString) (hv : validString s = true) :
    stripFileName s = deleteForbidden s := by
  rw [stripFileName_eq_flatMap]
  conv_rhs => rw [eq_flatMap_encodeRune_of_valid s hv]
  rw [deleteForbidden_flatMap]

theorem mem_deleteForbidden (s : GoString) (b : Byte) (h : b ∈ deleteForbidden s) :
    b ∉ forbiddenCharacters := by
  unfold deleteForbidden at h
  simpa using (List.mem_filter.mp h).2

/-- The result of `stripFileName` holds none of the forbidden bytes. -/
theorem stripFileName_not_forbidden (s : GoString) :
    ∀ b ∈ stripFileName s, b ∉ forbiddenCharacters := by
  intro b hb
  rw [stripFileName_eq_flatMap, List.mem_flatMap] at hb
  obtain ⟨d, _, hd⟩ := hb
  exact mem_deleteForbidden _ b hd

theorem keptRunes_valid (s : GoString) :
    ∀ r ∈ keptRunes s, (0 ≤ r ∧ r ≤ MaxRune ∧ ¬ (0xD800 ≤ r ∧ r ≤ 0xDFFF)) ∧
      0 ≤ removeForbidden r := by
  intro r hr
  unfold keptRunes at hr
  rw [List.mem_filter, List.mem_map] at hr
  obtain ⟨⟨d, hd, rfl⟩, hk⟩ := hr
  exact ⟨rangeString_valid s d hd, by simpa using hk⟩

theorem removeForbidden_nonneg (r : Int) (h0 : 0 ≤ r) :
    removeForbidden r = (if 0 ≤ removeForbidden r then r else -1) := by
  by_cases hc : 0 ≤ r ∧ r < 0x80 ∧ byteOf r.toNat ∈ forbiddenCharacters
  · rw [removeForbidden_of_contains r hc]; simp
  · rw [removeForbidden_of_not_contains r hc, if_pos h0]

/-- The result of `stripFileName` is the encoding of the kept runes. -/
theorem stripFileName_eq_keptRunes (s : GoString) :
    stripFileName s = (keptRunes s).flatMap encodeRune := by
  unfold stripFileName keptRunes
  rw [Map_eq_flatMap]
  have hv := rangeString_valid s
  generalize rangeString s = ds at hv
  induction ds with
  | nil => rfl
  | cons d ds ih =>
    have h0 := (hv d (List.mem_cons_self _ _)).1
    rw [List.flatMap_cons, ih (fun x hx => hv x (List.mem_cons_of_mem _ hx)), List.map_cons,
      List.filter_cons]
    unfold emit
    by_cases hk : 0 ≤ removeForbidden d.1
    · have he : removeForbidden d.1 = d.1 := by
        rw [removeForbidden_nonneg d.1 h0, if_pos hk]
      rw [if_pos hk]
      simp only [hk, decide_True, if_true, List.flatMap_cons]
      rw [he]
    · rw [if_neg hk]
      simp [hk]

/-- The `range` loop over a concatenation of encoded scalar values returns
those values. -/
theorem rangeString_flatMap_encodeRune (rs : List Int)
    (h : ∀ r ∈ rs, 0 ≤ r ∧ r ≤ MaxRune ∧ ¬ (0xD800 ≤ r ∧ r ≤ 0xDFFF)) :
    rangeString (rs.flatMap encodeRune) = rs.map (fun r => (r, (encodeRune r).length)) := by
  induction rs with
  | nil => rfl
  | cons r rs ih =>
    obtain ⟨h0, h1, h2⟩ := h r (List.mem_cons_self _ _)
    dsimp only [MaxRune] at h1
    obtain ⟨n, rfl⟩ : ∃ n : Nat, r = (n : Int) := ⟨r.toNat, by omega⟩
    rw [List.flatMap_cons, rangeString_encodeRune_append n (by omega) (by omega),
      ih (fun x hx => h x (List.mem_cons_of_mem _ hx)), List.map_cons]

theorem keptRunes_stripFileName (s : GoString) : keptRunes (stripFileName s) = keptRunes s := by
  have hv := keptRunes_valid s
  conv_lhs => unfold keptRunes
  rw [stripFileName_eq_keptRunes, rangeString_flatMap_encodeRune _ (fun r hr => (hv r hr).1),
    List.map_map]
  have : (Prod.fst ∘ fun r : Int => (r, (encodeRune r).length)) = id := rfl
  rw [this, List.map_id, List.filter_eq_self]
  intro r hr
  simpa using (hv r hr).2

/-- Idempotence of `stripFileName`, on every string. -/
theorem stripFileName_idem (s : GoString) :
    stripFileName (stripFileName s) = stripFileName s := by
  rw [stripFileName_eq_keptRunes (stripFileName s), keptRunes_stripFileName,
    ← stripFileName_eq_keptRunes]


theorem encodeRune_RuneError_length (r : Int) (h : r = RuneError) :
    (encodeRune r).length = 3 := by
  subst h; rfl

/-- The result of `stripFileName` is valid UTF-8. -/
theorem validString_stripFileName (s : GoString) : validString (stripFileName s) = true := by
  unfold validString
  rw [stripFileName_eq_keptRunes,
    rangeString_flatMap_encodeRune _ (fun r hr => (keptRunes_valid s r hr).1), List.all_eq_true]
  intro d hd
  rw [List.mem_map] at hd
  obtain ⟨r, _, rfl⟩ := hd
  by_cases h : r = RuneError
  · simp [encodeRune_RuneError_length r h]
  · simp [h]

/-- `stripFileName` leaves exactly the valid UTF-8 strings without forbidden
bytes as they are. -/
theorem stripFileName_eq_self_iff (s : GoString) :
    stripFileName s = s ↔ (validString s = true ∧ ∀ b ∈ s, b ∉ forbiddenCharacters) := by
  constructor
  · intro h
    refine ⟨?_, ?_⟩
    · rw [← h]; exact validString_stripFileName s
    · intro b hb
      rw [← h] at hb
      exact stripFileName_not_forbidden s b hb
  · rintro ⟨hv, hf⟩
    rw [stripFileName_of_valid s hv]
    unfold deleteForbidden
    rw [List.filter_eq_self]
    intro b hb
    simpa using hf b hb

/-! ### ASCII bytes are rune boundaries -/

theorem decodeRune_append_ascii (b : Byte) (s : GoString) (a : Byte) (t : GoString)
    (ha : a.val < 0x80) : decodeRune (b :: (s ++ a :: t)) = decodeRune (b :: s) := by
  rw [decodeRune_cons, decodeRune_cons]
  unfold decodeFlat
  by_cases h1 : b.val < 0x80
  · simp only [if_pos h1]
  simp only [if_neg h1]
  by_cases h2 : 0xC2 ≤ b.val ∧ b.val < 0xE0
  · simp only [if_pos h2]
    rcases s with _ | ⟨s1, s⟩
    · simp only [List.nil_append]
      rw [if_neg (by omega)]
    · rfl
  simp only [if_neg h2]
  by_cases h3 : 0xE0 ≤ b.val ∧ b.val < 0xF0
  · simp only [if_pos h3]
    rcases s with _ | ⟨s1, _ | ⟨s2, s⟩⟩
    · rcases t with _ | ⟨t1, t⟩
      · rfl
      · simp only [List.nil_append]
        rw [if_neg (by intro h; split_ifs at h <;> omega)]
    · simp only [List.cons_append, List.nil_append]
      rw [if_neg (by omega)]
    · rfl
  simp only [if_neg h3]
  by_cases h4 : 0xF0 ≤ b.val ∧ b.val < 0xF5
  · simp only [if_pos h4]
    rcases s with _ | ⟨s1, _ | ⟨s2, _ | ⟨s3, s⟩⟩⟩
    · rcases t with _ | ⟨t1, _ | ⟨t2, t⟩⟩
      · rfl
      · rfl
      · simp only [List.nil_append]
        rw [if_neg (by intro h; split_ifs at h <;> omega)]
    · rcases t with _ | ⟨t1, t⟩
      · rfl
      · simp only [List.cons_append, List.nil_append]
        rw [if_neg (by omega)]
    · simp only [List.cons_append, List.nil_append]
      rw [if_neg (by omega)]
    · rfl
  · simp only [if_neg h4]

/-- A string followed by text that starts with an ASCII byte: the `range`
loop treats the two parts separately. -/
theorem rangeString_append_ascii (s : GoString) (a : Byte) (t : GoString) (ha : a.val < 0x80) :
    rangeString (s ++ a :: t) = rangeString s ++ rangeString (a :: t) := by
  suffices H : ∀ n (s : GoString), s.length = n →
      rangeString (s ++ a :: t) = rangeString s ++ rangeString (a :: t) from H _ s rfl
  intro n
  induction n using Nat.strong_induction_on with
  | _ n ih =>
    intro s hn
    rcases s with _ | ⟨b, s⟩
    · rfl
    · have hd := decodeRune_append_ascii b s a t ha
      have hle := decodeRune_width_le (b :: s)
      rw [List.cons_append, rangeString_cons, rangeString_cons b s, hd, List.cons_append]
      congr 1
      rw [← List.cons_append, List.drop_append_of_le_length hle]
      exact ih _ (hn ▸ drop_decodeRune_length b s) _ rfl

/-! ### Directories -/

theorem Dir.find_append (d e : Dir) (m : GoString) :
    Dir.find (d ++ e) m = (Dir.find d m).orElse (fun _ => Dir.find e m) := by
  induction d with
  | nil => rfl
  | cons x d ih =>
    obtain ⟨n, v⟩ := x
    simp only [List.cons_append, Dir.find]
    by_cases h : n = m
    · simp [h]
    · simp [h, ih]

theorem Dir.find_remove (d : Dir) (n m : GoString) :
    Dir.find (Dir.remove d n) m = if m = n then none else Dir.find d m := by
  induction d with
  | nil => simp [Dir.remove, Dir.find]
  | cons x d ih =>
    obtain ⟨k, v⟩ := x
    unfold Dir.remove at ih ⊢
    rw [List.filter_cons]
    by_cases hk : k = n
    · subst hk
      simp only [ne_eq, not_true_eq_false, decide_False, Bool.false_eq_true, if_false, ih]
      by_cases hm : m = k
      · simp [hm]
      · simp only [hm, if_false, Dir.find]
        rw [if_neg (fun h => hm h.symm)]
    · simp only [ne_eq, hk, not_false_eq_true, decide_True, if_true, Dir.find, ih]
      by_cases hm : m = n
      · subst hm
        simp [hk]
      · simp [hm]

theorem Dir.find_put (d : Dir) (n : GoString) (v : Node) (m : GoString) :
    Dir.find (Dir.put d n v) m = if m = n then some v else Dir.find d m := by
  unfold Dir.put
  rw [Dir.find_append, Dir.find_remove]
  by_cases hm : m = n
  · subst hm
    simp [Dir.find]
  · have hnm : ¬ n = m := fun h => hm h.symm
    simp only [hm, if_false, Dir.find, hnm]
    cases Dir.find d m <;> rfl

theorem Dir.find_isSome_iff (d : Dir) (m : GoString) :
    (Dir.find d m).isSome = true ↔ m ∈ Dir.names d := by
  induction d with
  | nil => simp [Dir.find, Dir.names]
  | cons x d ih =>
    obtain ⟨k, v⟩ := x
    unfold Dir.names at ih ⊢
    simp only [Dir.find, List.map_cons, List.mem_cons]
    by_cases hk : k = m
    · simp [hk]
    · rw [if_neg hk, ih]
      constructor
      · intro h; exact Or.inr h
      · rintro (h | h)
        · exact absurd h.symm hk
        · exact h

theorem Dir.find_eq_none_iff (d : Dir) (m : GoString) :
    Dir.find d m = none ↔ m ∉ Dir.names d := by
  rw [← Dir.find_isSome_iff]
  cases Dir.find d m <;> simp

theorem mem_readDir (env : Env) (fs : Dir) (files : List GoString)
    (h : readDir env fs = some files) (m : GoString) : m ∈ files ↔ m ∈ Dir.names fs := by
  unfold readDir at h
  by_cases he : env.readDirErr = true
  · rw [if_pos he] at h; exact absurd h (by simp)
  · rw [if_neg he] at h
    simp only [Option.some.injEq] at h
    rw [← h]
    exact (List.perm_insertionSort _ _).mem_iff

/-- The call `os.ReadDir` lists the names in byte order. -/
theorem readDir_sorted_example :
    readDir Example.offline Example.twoPictures =
      some [lit "[2024-01-02] M31.jpg", lit "notes.txt", lit "old.jpg"] := by
  decide

/-! ### `os.Rename` into the archive -/

theorem sameFile_eq (a b : Node) (h : sameFile a b = true) : a = b := by
  cases a <;> cases b <;> simp [sameFile] at h
  obtain ⟨rfl, rfl⟩ := h
  rfl

/-- What a successful call establishes: nothing changed because both names
are names of one file, or the entry moved. -/
theorem renameToArchived_some (env : Env) (fs fs1 : Dir) (name : GoString)
    (h : renameToArchived env fs name = some fs1) :
    name ≠ archivedName ∧ ∃ node entries,
      Dir.find fs name = some node ∧ Dir.find fs archivedName = some (Node.dir entries) ∧
      ((alreadyInArchive fs name = true ∧ archivedFind fs name = some node ∧ fs1 = fs) ∨
        (alreadyInArchive fs name = false ∧
          fs1 = Dir.put (Dir.remove fs name) archivedName
            (Node.dir (Dir.put entries name node)))) := by
  unfold renameToArchived at h
  by_cases hc : env.renameErr name = true ∨ name = archivedName
  · rw [if_pos hc] at h; exact absurd h (by simp)
  · rw [if_neg hc] at h
    refine ⟨fun hn => hc (Or.inr hn), ?_⟩
    cases hn : Dir.find fs name with
    | none => rw [hn] at h; simp at h
    | some node =>
      cases ha : Dir.find fs archivedName with
      | none => rw [hn, ha] at h; simp at h
      | some a =>
        cases a with
        | file c => rw [hn, ha] at h; simp at h
        | hardlink i c => rw [hn, ha] at h; simp at h
        | dir entries =>
          rw [hn, ha] at h
          refine ⟨node, entries, rfl, rfl, ?_⟩
          dsimp only at h
          have haf : archivedFind fs name = Dir.find entries name := by
            unfold archivedFind; rw [ha]
          cases he : Dir.find entries name with
          | none =>
            rw [he] at h
            right
            refine ⟨?_, by simpa using h.symm⟩
            unfold alreadyInArchive
            rw [hn, haf, he]
          | some target =>
            rw [he] at h
            dsimp only at h
            by_cases hs : sameFile node target = true
            · rw [if_pos hs] at h
              left
              refine ⟨?_, ?_, by simpa using h.symm⟩
              · unfold alreadyInArchive
                rw [hn, haf, he]
                exact hs
              · rw [haf, he, sameFile_eq node target hs]
            · rw [if_neg hs] at h
              right
              refine ⟨?_, ?_⟩
              · unfold alreadyInArchive
                rw [hn, haf, he]
                simpa using hs
              · by_cases hr : (isRegular node && isRegular target) = true
                · rw [if_pos hr] at h; simpa using h.symm
                · rw [if_neg hr] at h; simp at h

theorem find_after_rename (fs : Dir) (name : GoString) (node : Node) (entries : Dir)
    (m : GoString) (hm : m ≠ archivedName) :
    Dir.find (Dir.put (Dir.remove fs name) archivedName (Node.dir (Dir.put entries name node))) m
      = if m = name then none else Dir.find fs m := by
  rw [Dir.find_put, if_neg hm, Dir.find_remove]

theorem archivedFind_after_rename (fs : Dir) (name : GoString) (node : Node) (entries : Dir)
    (ha : Dir.find fs archivedName = some (Node.dir entries)) (m : GoString) :
    archivedFind
        (Dir.put (Dir.remove fs name) archivedName (Node.dir (Dir.put entries name node))) m
      = if m = name then some node else archivedFind fs m := by
  unfold archivedFind
  rw [Dir.find_put, if_pos rfl, ha]
  dsimp only
  rw [Dir.find_put]

theorem isStale_archivedName (image : GoString) : isStale image archivedName = false := by
  have h : strings.HasSuffix archivedName (lit ".jpg") = false := by decide
  unfold isStale
  rw [h, Bool.and_false]

/-! ### Outcomes -/

theorem Outcome.after_returned {α : Type} (pre : List Event) (o : Outcome α) (v : α) (fs : Dir)
    (log : List Event) (h : Outcome.after pre o = Outcome.returned v fs log) :
    ∃ l2, o = Outcome.returned v fs l2 ∧ log = pre ++ l2 := by
  cases o with
  | returned v2 fs2 l2 =>
    simp only [Outcome.after, Outcome.returned.injEq] at h
    obtain ⟨rfl, rfl, rfl⟩ := h
    exact ⟨l2, rfl, rfl⟩
  | fatal m fs2 l2 => simp [Outcome.after] at h

theorem Outcome.andThen_returned {α β : Type} (o : Outcome α) (k : α → Dir → Outcome β) (v : β)
    (fs : Dir) (log : List Event) (h : Outcome.andThen o k = Outcome.returned v fs log) :
    ∃ a fs1 l1 l2, o = Outcome.returned a fs1 l1 ∧ k a fs1 = Outcome.returned v fs l2 ∧
      log = l1 ++ l2 := by
  cases o with
  | returned a fs1 l1 =>
    simp only [Outcome.andThen] at h
    obtain ⟨l2, h2, h3⟩ := Outcome.after_returned _ _ _ _ _ h
    exact ⟨a, fs1, l1, l2, rfl, h2, h3⟩
  | fatal m fs2 l2 => simp [Outcome.andThen] at h

/-! ### The loop of `archiveOldImages` -/

theorem alreadyInArchive_congr (a b : Dir) (m : GoString) (h1 : Dir.find a m = Dir.find b m)
    (h2 : archivedFind a m = archivedFind b m) : alreadyInArchive a m = alreadyInArchive b m := by
  unfold alreadyInArchive
  rw [h1, h2]

/-- The state after a loop that ran to its end, name by name. -/
theorem archiveLoop_returned (env : Env) (image : GoString) :
    ∀ (l : List GoString) (fs fs' : Dir) (log : List Event),
      archiveLoop env image l fs = Outcome.returned () fs' log →
      (∀ m, m ≠ archivedName →
        Dir.find fs' m =
          if (m ∈ l ∧ isStale image m = true ∧ alreadyInArchive fs m = false) then none
          else Dir.find fs m) ∧
      (∀ m, archivedFind fs' m =
        if (m ∈ l ∧ isStale image m = true) then Dir.find fs m else archivedFind fs m) ∧
      (∀ m ∈ l, isStale image m = true → (Dir.find fs m).isSome = true) ∧
      ((Dir.find fs archivedName).isSome = true → (Dir.find fs' archivedName).isSome = true) ∧
      (∀ m, Event.rename m ∈ log ↔ (m ∈ l ∧ isStale image m = true)) := by
  intro l
  induction l with
  | nil =>
    intro fs fs' log h
    simp only [archiveLoop, Outcome.returned.injEq, true_and] at h
    obtain ⟨rfl, rfl⟩ := h
    simp
  | cons name rest ih =>
    intro fs fs' log h
    simp only [archiveLoop] at h
    by_cases hs : isStale image name = true
    · rw [if_pos hs] at h
      cases hr : renameToArchived env fs name with
      | none => rw [hr] at h; simp at h
      | some fs1 =>
        rw [hr] at h
        dsimp only at h
        obtain ⟨l2, h2, hlog⟩ := Outcome.after_returned _ _ _ _ _ h
        obtain ⟨i1, i2, i3, i4, i5⟩ := ih fs1 fs' l2 h2
        obtain ⟨hne, node, entries, hn, ha, hcase⟩ := renameToArchived_some env fs fs1 name hr
        have hev : ∀ m, Event.rename m ∈ log ↔ (m ∈ name :: rest ∧ isStale image m = true) := by
          intro m
          rw [hlog]
          simp only [List.mem_append, List.mem_cons, Event.rename.injEq, List.mem_singleton,
            List.not_mem_nil, or_false, i5 m]
          constructor
          · rintro (h1 | h1)
            · rcases h1 with h1 | h1
              · subst h1; exact ⟨Or.inl rfl, hs⟩
              · exact absurd h1 (by simp)
            · exact ⟨Or.inr h1.1, h1.2⟩
          · rintro ⟨h1 | h1, h2⟩
            · exact Or.inl (Or.inl h1)
            · exact Or.inr ⟨h1, h2⟩
        rcases hcase with ⟨hlink, harch, hfs1⟩ | ⟨hlink, hfs1⟩
        · -- both names are names of one file: nothing changed
          subst hfs1
          refine ⟨?_, ?_, ?_, i4, hev⟩
          · intro m hm
            rw [i1 m hm]
            by_cases hmn : m = name
            · subst hmn
              rw [if_neg (fun hc => by rw [hlink] at hc; exact absurd hc.2.2 (by simp)),
                if_neg (fun hc => by rw [hlink] at hc; exact absurd hc.2.2 (by simp))]
            · have hiff : (m ∈ name :: rest ∧ isStale image m = true ∧
                  alreadyInArchive fs1 m = false) ↔
                  (m ∈ rest ∧ isStale image m = true ∧ alreadyInArchive fs1 m = false) := by
                constructor
                · rintro ⟨hmem, hrest⟩
                  rcases List.mem_cons.mp hmem with h1 | h1
                  · exact absurd h1 hmn
                  · exact ⟨h1, hrest⟩
                · rintro ⟨hmem, hrest⟩
                  exact ⟨List.mem_cons_of_mem _ hmem, hrest⟩
              simp only [hiff]
          · intro m
            rw [i2 m]
            by_cases hmn : m = name
            · subst hmn
              have hR : m ∈ m :: rest ∧ isStale image m = true := ⟨List.mem_cons_self _ _, hs⟩
              rw [if_pos hR]
              by_cases hc : m ∈ rest ∧ isStale image m = true
              · rw [if_pos hc]
              · rw [if_neg hc, harch, hn]
            · have hiff : (m ∈ name :: rest ∧ isStale image m = true) ↔
                  (m ∈ rest ∧ isStale image m = true) := by
                constructor
                · rintro ⟨hmem, hrest⟩
                  rcases List.mem_cons.mp hmem with h1 | h1
                  · exact absurd h1 hmn
                  · exact ⟨h1, hrest⟩
                · rintro ⟨hmem, hrest⟩
                  exact ⟨List.mem_cons_of_mem _ hmem, hrest⟩
              simp only [hiff]
          · intro m hmem hst
            rcases List.mem_cons.mp hmem with h1 | h1
            · rw [h1, hn]; rfl
            · exact i3 m h1 hst
        · -- the entry moved
          have hf1 : ∀ m, m ≠ archivedName →
              Dir.find fs1 m = if m = name then none else Dir.find fs m := by
            intro m hm; rw [hfs1]; exact find_after_rename fs name node entries m hm
          have ha1 : ∀ m, archivedFind fs1 m =
              if m = name then some node else archivedFind fs m := by
            intro m; rw [hfs1]; exact archivedFind_after_rename fs name node entries ha m
          have hnot : ¬ (name ∈ rest ∧ isStale image name = true) := by
            rintro ⟨hmem, _⟩
            have := i3 name hmem hs
            rw [hf1 name hne, if_pos rfl] at this
            simp at this
          have hsame : ∀ m, m ≠ archivedName → m ≠ name →
              alreadyInArchive fs1 m = alreadyInArchive fs m := by
            intro m hm hmn
            apply alreadyInArchive_congr
            · rw [hf1 m hm, if_neg hmn]
            · rw [ha1 m, if_neg hmn]
          refine ⟨?_, ?_, ?_, ?_, hev⟩
          · intro m hm
            rw [i1 m hm, hf1 m hm]
            by_cases hmn : m = name
            · subst hmn
              have hR : m ∈ m :: rest ∧ isStale image m = true ∧
                  alreadyInArchive fs m = false := ⟨List.mem_cons_self _ _, hs, hlink⟩
              rw [if_pos hR]
              simp
            · rw [if_neg hmn, hsame m hm hmn]
              have hiff : (m ∈ name :: rest ∧ isStale image m = true ∧
                  alreadyInArchive fs m = false) ↔
                  (m ∈ rest ∧ isStale image m = true ∧ alreadyInArchive fs m = false) := by
                constructor
                · rintro ⟨hmem, hrest⟩
                  rcases List.mem_cons.mp hmem with h1 | h1
                  · exact absurd h1 hmn
                  · exact ⟨h1, hrest⟩
                · rintro ⟨hmem, hrest⟩
                  exact ⟨List.mem_cons_of_mem _ hmem, hrest⟩
              simp only [hiff]
          · intro m
            rw [i2 m, ha1 m]
            by_cases hmn : m = name
            · subst hmn
              have hR : m ∈ m :: rest ∧ isStale image m = true := ⟨List.mem_cons_self _ _, hs⟩
              rw [if_neg hnot, if_pos rfl, if_pos hR, hn]
            · rw [if_neg hmn]
              by_cases hc : m ∈ rest ∧ isStale image m = true
              · rw [if_pos hc, if_pos ⟨List.mem_cons_of_mem _ hc.1, hc.2⟩, hf1 m ?_, if_neg hmn]
                intro hma
                rw [hma, isStale_archivedName] at hc
                simp at hc
              · rw [if_neg hc, if_neg]
                rintro ⟨hmem, hst⟩
                rcases List.mem_cons.mp hmem with h1 | h1
                · exact hmn h1
                · exact hc ⟨h1, hst⟩
          · intro m hmem hst
            rcases List.mem_cons.mp hmem with h1 | h1
            · rw [h1, hn]; rfl
            · have := i3 m h1 hst
              have hma : m ≠ archivedName := by
                intro hma
                rw [hma, isStale_archivedName] at hst
                simp at hst
              rw [hf1 m hma] at this
              by_cases hmn : m = name
              · rw [hmn, hn]; rfl
              · rw [if_neg hmn] at this; exact this
          · intro _
            apply i4
            rw [hfs1, Dir.find_put, if_pos rfl]; rfl
    · rw [if_neg hs] at h
      obtain ⟨i1, i2, i3, i4, i5⟩ := ih fs fs' log h
      have hiff : ∀ m, (m ∈ name :: rest ∧ isStale image m = true) ↔
          (m ∈ rest ∧ isStale image m = true) := by
        intro m
        constructor
        · rintro ⟨hmem, hst⟩
          rcases List.mem_cons.mp hmem with h1 | h1
          · rw [h1] at hst; exact absurd hst hs
          · exact ⟨h1, hst⟩
        · rintro ⟨hmem, hst⟩
          exact ⟨List.mem_cons_of_mem _ hmem, hst⟩
      have hiff3 : ∀ m, (m ∈ name :: rest ∧ isStale image m = true ∧
          alreadyInArchive fs m = false) ↔
          (m ∈ rest ∧ isStale image m = true ∧ alreadyInArchive fs m = false) := by
        intro m
        constructor
        · rintro ⟨hmem, hst, hl⟩
          exact ⟨((hiff m).mp ⟨hmem, hst⟩).1, hst, hl⟩
        · rintro ⟨hmem, hst, hl⟩
          exact ⟨List.mem_cons_of_mem _ hmem, hst, hl⟩
      refine ⟨?_, ?_, ?_, i4, ?_⟩
      · intro m hm; rw [i1 m hm]; simp only [hiff3 m]
      · intro m; rw [i2 m]; simp only [hiff m]
      · intro m hmem hst
        exact i3 m ((hiff m).mp ⟨hmem, hst⟩).1 hst
      · intro m; rw [i5 m, hiff m]

/-! ### `archiveOldImages` -/

theorem isStale_iff (image name : GoString) :
    isStale image name = true ↔ (name ≠ image ∧ strings.HasSuffix name (lit ".jpg") = true) := by
  unfold isStale
  simp

theorem isStale_ne_archivedName (image m : GoString) (h : isStale image m = true) :
    m ≠ archivedName := by
  intro hm
  rw [hm, isStale_archivedName] at h
  exact absurd h (by simp)

/-- The first part of `archiveOldImages` only adds the empty directory
`archived`, and only when the name is free. -/
theorem ensureArchived_returned (env : Env) (fs fs1 : Dir) (l1 : List Event)
    (h : ensureArchived env fs = Outcome.returned () fs1 l1) :
    (∀ m, m ≠ archivedName → Dir.find fs1 m = Dir.find fs m) ∧
    (∀ m, archivedFind fs1 m = archivedFind fs m) ∧
    (Dir.find fs1 archivedName).isSome = true ∧
    (∀ m, Event.rename m ∉ l1) := by
  unfold ensureArchived at h
  by_cases hs : env.statErr = true
  · rw [if_pos hs] at h; simp at h
  · rw [if_neg hs] at h
    cases ha : Dir.find fs archivedName with
    | some a =>
      rw [ha] at h
      simp only [Outcome.returned.injEq, true_and] at h
      obtain ⟨rfl, rfl⟩ := h
      refine ⟨fun _ _ => rfl, fun _ => rfl, by rw [ha]; rfl, ?_⟩
      intro m hm
      simp at hm
    | none =>
      rw [ha] at h
      dsimp only at h
      by_cases hk : env.mkdirErr = true
      · rw [if_pos hk] at h; simp at h
      · rw [if_neg hk] at h
        simp only [Outcome.returned.injEq, true_and] at h
        obtain ⟨rfl, rfl⟩ := h
        refine ⟨?_, ?_, ?_, ?_⟩
        · intro m hm; rw [Dir.find_put, if_neg hm]
        · intro m
          unfold archivedFind
          rw [Dir.find_put, if_pos rfl, ha]
          rfl
        · rw [Dir.find_put, if_pos rfl]; rfl
        · intro m hm
          simp at hm

/-- The working directory and the archive after `archiveOldImages` returned,
name by name. -/
theorem archiveOldImages_returned (env : Env) (image : GoString) (fs fs' : Dir)
    (log : List Event) (h : archiveOldImages env image fs = Outcome.returned () fs' log) :
    (∀ m, m ≠ archivedName →
      Dir.find fs' m =
        if (isStale image m = true ∧ alreadyInArchive fs m = false) then none
        else Dir.find fs m) ∧
    (∀ m, archivedFind fs' m =
      if ((Dir.find fs m).isSome = true ∧ isStale image m = true) then Dir.find fs m
      else archivedFind fs m) ∧
    (Dir.find fs' archivedName).isSome = true ∧
    (∀ m, Event.rename m ∈ log ↔ ((Dir.find fs m).isSome = true ∧ isStale image m = true)) := by
  unfold archiveOldImages at h
  obtain ⟨_, fs1, l1, l2, h1, h2, hlog⟩ := Outcome.andThen_returned _ _ _ _ _ h
  obtain ⟨e1, e2, e3, e4⟩ := ensureArchived_returned env fs fs1 l1 h1
  cases hr : readDir env fs1 with
  | none => rw [hr] at h2; simp at h2
  | some files =>
    rw [hr] at h2
    dsimp only at h2
    obtain ⟨l3, h3, hl2⟩ := Outcome.after_returned _ _ _ _ _ h2
    obtain ⟨i1, i2, _, i4, i5⟩ := archiveLoop_returned env image files fs1 fs' l3 h3
    have hmem : ∀ m, m ≠ archivedName → (m ∈ files ↔ (Dir.find fs m).isSome = true) := by
      intro m hm
      rw [mem_readDir env fs1 files hr m, ← Dir.find_isSome_iff, e1 m hm]
    refine ⟨?_, ?_, i4 e3, ?_⟩
    · intro m hm
      rw [i1 m hm, e1 m hm, alreadyInArchive_congr fs1 fs m (e1 m hm) (e2 m)]
      by_cases hs : isStale image m = true ∧ alreadyInArchive fs m = false
      · rw [if_pos hs]
        by_cases hf : m ∈ files
        · rw [if_pos ⟨hf, hs⟩]
        · rw [if_neg (fun hc => hf hc.1)]
          have := (hmem m hm).not.mp hf
          cases hx : Dir.find fs m with
          | none => rfl
          | some x => rw [hx] at this; simp at this
      · rw [if_neg hs, if_neg (fun hc => hs hc.2)]
    · intro m
      rw [i2 m, e2 m]
      by_cases hs : isStale image m = true
      · have hm := isStale_ne_archivedName image m hs
        by_cases hf : m ∈ files
        · rw [if_pos ⟨hf, hs⟩, if_pos ⟨(hmem m hm).mp hf, hs⟩, e1 m hm]
        · rw [if_neg (fun hc => hf hc.1), if_neg (fun hc => hf ((hmem m hm).mpr hc.1))]
      · rw [if_neg (fun hc => hs hc.2), if_neg (fun hc => hs hc.2)]
    · intro m
      rw [hlog, hl2]
      simp only [List.mem_append, List.mem_cons, List.mem_singleton, List.not_mem_nil, or_false,
        i5 m]
      constructor
      · rintro (hc | hc | hc)
        · exact absurd hc (e4 m)
        · exact absurd hc (by simp)
        · exact ⟨(hmem m (isStale_ne_archivedName image m hc.2)).mp hc.1, hc.2⟩
      · rintro ⟨hc1, hc2⟩
        exact Or.inr (Or.inr ⟨(hmem m (isStale_ne_archivedName image m hc2)).mpr hc1, hc2⟩)

/-! ### `stripFileName` on text with ASCII parts -/

theorem stripFileName_nil : stripFileName [] = [] := rfl

theorem stripFileName_append_ascii (s : GoString) (a : Byte) (t : GoString) (ha : a.val < 0x80) :
    stripFileName (s ++ a :: t) = stripFileName s ++ stripFileName (a :: t) := by
  rw [stripFileName_eq_flatMap, rangeString_append_ascii s a t ha, List.flatMap_append,
    ← stripFileName_eq_flatMap, ← stripFileName_eq_flatMap]

theorem stripFileName_cons_ascii (a : Byte) (t : GoString) (ha : a.val < 0x80) :
    stripFileName (a :: t) = deleteForbidden [a] ++ stripFileName t := by
  have hd : decodeRune (a :: t) = ((a.val : Int), 1) := by
    rw [decodeRune_cons]; unfold decodeFlat; rw [if_pos ha]
  rw [stripFileName_eq_flatMap, rangeString_cons, hd, List.flatMap_cons,
    ← stripFileName_eq_flatMap]
  dsimp only
  rw [encodeRune_one a ha]
  rfl

/-- An ASCII text in front of or behind a string is stripped on its own. -/
theorem stripFileName_ascii_append (u : GoString) (hu : ∀ b ∈ u, b.val < 0x80) (t : GoString) :
    stripFileName (u ++ t) = deleteForbidden u ++ stripFileName t := by
  induction u with
  | nil => rfl
  | cons a u ih =>
    have ha := hu a (List.mem_cons_self _ _)
    rw [List.cons_append, stripFileName_cons_ascii a _ ha,
      ih (fun b hb => hu b (List.mem_cons_of_mem _ hb))]
    unfold deleteForbidden
    rw [← List.append_assoc, ← List.filter_append]
    rfl

theorem stripFileName_append_ascii_text (s : GoString) (a : Byte) (u : GoString)
    (hu : ∀ b ∈ a :: u, b.val < 0x80) (t : GoString) :
    stripFileName (s ++ (a :: u ++ t)) =
      stripFileName s ++ (deleteForbidden (a :: u) ++ stripFileName t) := by
  have ha := hu a (List.mem_cons_self _ _)
  rw [List.cons_append, stripFileName_append_ascii s a _ ha, ← List.cons_append,
    stripFileName_ascii_append (a :: u) hu t]

theorem lit_bracket : lit "[" = [0x5B] := by decide

theorem lit_bracket_space : lit "] " = [0x5D, 0x20] := by decide

theorem lit_jpg : lit ".jpg" = [0x2E, 0x6A, 0x70, 0x67] := by decide

/-- The stripped file name of `downloadImage`, part by part. -/
theorem stripFileName_fileName (r : Response) :
    stripFileName (fileName r) =
      lit "[" ++ (stripFileName r.Date ++ (lit "] " ++ (stripFileName r.Title ++ lit ".jpg"))) := by
  unfold fileName
  rw [List.append_assoc, List.append_assoc, List.append_assoc, lit_bracket, lit_bracket_space,
    lit_jpg]
  have h1 : ∀ b ∈ ([0x5B] : GoString), b.val < 0x80 := by
    intro b hb
    simp only [List.mem_singleton] at hb
    subst hb; decide
  have h2 : ∀ b ∈ ([0x5D, 0x20] : GoString), b.val < 0x80 := by
    intro b hb
    simp only [List.mem_cons, List.mem_singleton, List.not_mem_nil, or_false] at hb
    rcases hb with hb | hb <;> subst hb <;> decide
  have h3 : ∀ b ∈ ([0x2E, 0x6A, 0x70, 0x67] : GoString), b.val < 0x80 := by
    intro b hb
    simp only [List.mem_cons, List.mem_singleton, List.not_mem_nil, or_false] at hb
    rcases hb with hb | hb | hb | hb <;> subst hb <;> decide
  have e1 : deleteForbidden ([0x5B] : GoString) = [0x5B] := by decide
  have e2 : deleteForbidden ([0x5D, 0x20] : GoString) = [0x5D, 0x20] := by decide
  have e3 : deleteForbidden ([0x2E, 0x6A, 0x70, 0x67] : GoString) = [0x2E, 0x6A, 0x70, 0x67] := by
    decide
  rw [stripFileName_ascii_append _ h1, e1,
    stripFileName_append_ascii_text r.Date 0x5D [0x20] h2, e2]
  have h4 := stripFileName_append_ascii_text r.Title 0x2E [0x6A, 0x70, 0x67] h3 []
  rw [List.append_nil, stripFileName_nil, List.append_nil, e3] at h4
  rw [h4]

theorem HasPrefix_append (p t : GoString) : strings.HasPrefix (p ++ t) p = true := by
  unfold strings.HasPrefix
  simp

theorem HasSuffix_append (t x : GoString) : strings.HasSuffix (t ++ x) x = true := by
  unfold strings.HasSuffix
  simp

theorem TrimPrefix_append (p t : GoString) : strings.TrimPrefix (p ++ t) p = t := by
  unfold strings.TrimPrefix
  rw [if_pos (HasPrefix_append p t)]
  simp

/-! ### The steps of a run -/

theorem Outcome.log_after {α : Type} (pre : List Event) (o : Outcome α) :
    (Outcome.after pre o).log = pre ++ o.log := by
  cases o <;> rfl

theorem invocations_append (a b : List Event) :
    invocations (a ++ b) = invocations a ++ invocations b := by
  unfold invocations
  rw [List.filterMap_append]

theorem downloadImage_invocations (env : Env) (r : Response) (fs : Dir) :
    invocations (downloadImage env r fs).log = [] := by
  unfold downloadImage
  dsimp only
  cases readDir env fs with
  | none => rfl
  | some files =>
    dsimp only
    split_ifs
    · rfl
    · cases env.httpGet r.HDURL with
      | none => rfl
      | some response =>
        dsimp only
        cases create env fs (stripFileName (fileName r)) with
        | none => rfl
        | some fs1 =>
          dsimp only
          split_ifs <;> rfl

theorem archiveLoop_invocations (env : Env) (image : GoString) (l : List GoString) :
    ∀ fs : Dir, invocations (archiveLoop env image l fs).log = [] := by
  induction l with
  | nil => intro fs; rfl
  | cons name rest ih =>
    intro fs
    simp only [archiveLoop]
    split_ifs
    · cases renameToArchived env fs name with
      | none => rfl
      | some fs1 =>
        dsimp only
        rw [Outcome.log_after, invocations_append, ih fs1]
        rfl
    · exact ih fs

theorem Outcome.log_andThen {α β : Type} (o : Outcome α) (k : α → Dir → Outcome β) :
    (Outcome.andThen o k).log =
      o.log ++ (match o with
        | Outcome.returned v fs _ => (k v fs).log
        | Outcome.fatal _ _ _ => []) := by
  cases o with
  | returned v fs l =>
    show (Outcome.after l (k v fs)).log = l ++ (k v fs).log
    exact Outcome.log_after l (k v fs)
  | fatal m fs l => simp only [Outcome.andThen, Outcome.log, List.append_nil]

theorem ensureArchived_invocations (env : Env) (fs : Dir) :
    invocations (ensureArchived env fs).log = [] := by
  unfold ensureArchived
  by_cases hs : env.statErr = true
  · rw [if_pos hs]; rfl
  · rw [if_neg hs]
    cases Dir.find fs archivedName with
    | some a => rfl
    | none =>
      dsimp only
      by_cases hk : env.mkdirErr = true
      · rw [if_pos hk]; rfl
      · rw [if_neg hk]; rfl

theorem archiveOldImages_invocations (env : Env) (image : GoString) (fs : Dir) :
    invocations (archiveOldImages env image fs).log = [] := by
  unfold archiveOldImages
  rw [Outcome.log_andThen, invocations_append, ensureArchived_invocations]
  cases ensureArchived env fs with
  | fatal m fs1 l1 => rfl
  | returned v fs1 l1 =>
    dsimp only
    cases readDir env fs1 with
    | none => rfl
    | some files =>
      dsimp only
      rw [Outcome.log_after, invocations_append, archiveLoop_invocations]
      rfl

theorem setWallpaper_invocations (env : Env) (image : GoString) (fs : Dir) :
    invocations (setWallpaper env image fs).log = [] := by
  unfold setWallpaper
  dsimp only
  split_ifs <;> rfl

/-! # The claims of the specification -/

/-- C1, as stated, fails: on the string that is the single byte 0xFF, which is
not valid UTF-8, `stripFileName` returns the three bytes of U+FFFD, while the
string with the forbidden characters deleted is the byte itself. -/
theorem stripFileName_invalid_byte_counterexample :
    stripFileName [0xFF] = [0xEF, 0xBF, 0xBD] ∧ deleteForbidden [0xFF] = [0xFF] ∧
      ¬ (stripFileName [0xFF] = deleteForbidden [0xFF]) := by
  decide

/-- C1, amended: for every valid UTF-8 string `s`, `stripFileName s` is `s` with
every occurrence of the nine forbidden characters deleted and all other
bytes kept in order; for every string, valid or not, the result holds none of
the nine characters, and it is the deletion applied to `s` with each byte of
an invalid encoding replaced by U+FFFD. -/
theorem stripFileName_deletes_forbidden (s : GoString) :
    (validString s = true → stripFileName s = deleteForbidden s) ∧
      (∀ b ∈ stripFileName s, b ∉ forbiddenCharacters) ∧
      stripFileName s = deleteForbidden (replaceInvalid s) := by
  refine ⟨stripFileName_of_valid s, stripFileName_not_forbidden s, ?_⟩
  unfold replaceInvalid
  rw [deleteForbidden_flatMap, stripFileName_eq_flatMap]

/-- C1, amended, at the valid string `a/b: c?.jpg`. -/
theorem stripFileName_deletes_forbidden_witness :
    validString (lit "a/b: c?.jpg") = true ∧
      stripFileName (lit "a/b: c?.jpg") = deleteForbidden (lit "a/b: c?.jpg") ∧
      stripFileName (lit "a/b: c?.jpg") = lit "ab c.jpg" :=
  ⟨by decide, (stripFileName_deletes_forbidden (lit "a/b: c?.jpg")).1 (by decide), by decide⟩

/-- C10, as stated, fails: on the single byte 0xC3, the first half of a
two-byte encoding, the result is longer than the input and differs from it
although the input holds no forbidden character. -/
theorem stripFileName_lengthens_counterexample :
    ¬ (stripFileName (stripFileName [0xC3]) = stripFileName [0xC3] ∧
        (stripFileName [0xC3]).length ≤ ([0xC3] : GoString).length ∧
        (stripFileName [0xC3] = [0xC3] ↔ ∀ b ∈ ([0xC3] : GoString), b ∉ forbiddenCharacters)) := by
  rintro ⟨_, h, _⟩
  revert h
  decide

/-- C10, amended: `stripFileName` is idempotent on every string; on every
valid UTF-8 string the result is at most as long as the input; and
`stripFileName s = s` if and only if `s` is valid UTF-8 and holds none of the
nine forbidden characters. -/
theorem stripFileName_idempotent_and_shrinking (s : GoString) :
    stripFileName (stripFileName s) = stripFileName s ∧
      (validString s = true → (stripFileName s).length ≤ s.length) ∧
      (stripFileName s = s ↔ (validString s = true ∧ ∀ b ∈ s, b ∉ forbiddenCharacters)) := by
  refine ⟨stripFileName_idem s, ?_, stripFileName_eq_self_iff s⟩
  intro hv
  rw [stripFileName_of_valid s hv]
  exact List.length_filter_le _ _

/-- C10, amended, at the valid string `a/b`. -/
theorem stripFileName_idempotent_and_shrinking_witness :
    validString (lit "a/b") = true ∧ (stripFileName (lit "a/b")).length ≤ (lit "a/b").length :=
  ⟨by decide, (stripFileName_idempotent_and_shrinking (lit "a/b")).2.1 (by decide)⟩

/-- C8: when the embedded `.env` is `API_KEY=` followed by `k`, `getAPIKey`
returns `k` and the request URL is the APOD address followed by `k`; content
that does not start with `API_KEY=` is returned unchanged. -/
theorem getAPIKey_reads_key (k data : GoString) :
    getAPIKey (lit "API_KEY=" ++ k) = k ∧
      apiURL (lit "API_KEY=" ++ k) = lit "https://api.nasa.gov/planetary/apod?api_key=" ++ k ∧
      (strings.HasPrefix data (lit "API_KEY=") = false → getAPIKey data = data) := by
  have h1 : getAPIKey (lit "API_KEY=" ++ k) = k := TrimPrefix_append _ _
  refine ⟨h1, ?_, ?_⟩
  · unfold apiURL
    rw [h1]
  · intro h
    unfold getAPIKey strings.TrimPrefix
    rw [h]
    rfl

/-- C8 at the key `DEMO_KEY` and at a file without the prefix. -/
theorem getAPIKey_reads_key_witness :
    getAPIKey (lit "API_KEY=" ++ lit "DEMO_KEY") = lit "DEMO_KEY" ∧
      strings.HasPrefix (lit "KEY=x") (lit "API_KEY=") = false ∧
      getAPIKey (lit "KEY=x") = lit "KEY=x" :=
  ⟨(getAPIKey_reads_key (lit "DEMO_KEY") (lit "KEY=x")).1, by decide,
    (getAPIKey_reads_key (lit "DEMO_KEY") (lit "KEY=x")).2.2 (by decide)⟩

/-- C9: for every record the stripped file name of `downloadImage` begins with
`[`, ends with `.jpg` and holds neither a slash nor a backslash; the loop
condition of `archiveOldImages` holds for it whenever it differs from the
image name of that run. -/
theorem fileName_is_plain_jpg_name (r : Response) (image : GoString) :
    strings.HasPrefix (stripFileName (fileName r)) (lit "[") = true ∧
      strings.HasSuffix (stripFileName (fileName r)) (lit ".jpg") = true ∧
      (0x2F : Byte) ∉ stripFileName (fileName r) ∧
      (0x5C : Byte) ∉ stripFileName (fileName r) ∧
      (stripFileName (fileName r) ≠ image → isStale image (stripFileName (fileName r)) = true) := by
  have hp : strings.HasPrefix (stripFileName (fileName r)) (lit "[") = true := by
    rw [stripFileName_fileName]; exact HasPrefix_append _ _
  have hs : strings.HasSuffix (stripFileName (fileName r)) (lit ".jpg") = true := by
    rw [stripFileName_fileName, ← List.append_assoc, ← List.append_assoc, ← List.append_assoc]
    exact HasSuffix_append _ _
  refine ⟨hp, hs, ?_, ?_, ?_⟩
  · intro h
    exact stripFileName_not_forbidden _ _ h (by rw [forbiddenCharacters_eq]; decide)
  · intro h
    exact stripFileName_not_forbidden _ _ h (by rw [forbiddenCharacters_eq]; decide)
  · intro hne
    rw [isStale_iff]
    exact ⟨hne, hs⟩

/-- C9 at a record whose title holds separators and an invalid byte. -/
theorem fileName_is_plain_jpg_name_witness :
    stripFileName (fileName { Example.picture with Title := lit "a/b\\c" ++ [0xE2] }) ≠ lit "x.jpg" ∧
      isStale (lit "x.jpg")
        (stripFileName (fileName { Example.picture with Title := lit "a/b\\c" ++ [0xE2] })) = true :=
  ⟨by decide,
    (fileName_is_plain_jpg_name { Example.picture with Title := lit "a/b\\c" ++ [0xE2] }
      (lit "x.jpg")).2.2.2.2 (by decide)⟩

/-- C2: when the working directory lists an entry with the stripped file name,
`downloadImage` returns that name after reading the directory and printing
the notice: no `http.Get`, no `os.Create`, no write, and the directory is as
before.  After a call that returned, the directory lists the name, so the
next call with the same record, in any run where `os.ReadDir` works, takes
this path and returns the same name. -/
theorem downloadImage_skips_existing (env : Env) (r : Response) (fs : Dir) :
    (env.readDirErr = false → stripFileName (fileName r) ∈ Dir.names fs →
      downloadImage env r fs =
        Outcome.returned (stripFileName (fileName r)) fs
          [Event.readDir, Event.stdout (lit "Image already downloaded, skipped\n")]) ∧
    (∀ name fs1 log, downloadImage env r fs = Outcome.returned name fs1 log →
      env.readDirErr = false ∧ name = stripFileName (fileName r) ∧ name ∈ Dir.names fs1 ∧
      ∀ env2 : Env, env2.readDirErr = false →
        downloadImage env2 r fs1 =
          Outcome.returned name fs1
            [Event.readDir, Event.stdout (lit "Image already downloaded, skipped\n")]) := by
  have skip : ∀ (e : Env) (fs0 : Dir), e.readDirErr = false →
      stripFileName (fileName r) ∈ Dir.names fs0 →
      downloadImage e r fs0 =
        Outcome.returned (stripFileName (fileName r)) fs0
          [Event.readDir, Event.stdout (lit "Image already downloaded, skipped\n")] := by
    intro e fs0 hread hmem
    have hr : readDir e fs0 = some ((Dir.names fs0).insertionSort (fun a b => a ≤ b)) := by
      unfold readDir; rw [hread]; rfl
    have hin := (mem_readDir e fs0 _ hr (stripFileName (fileName r))).mpr hmem
    unfold downloadImage
    rw [hr]
    dsimp only
    rw [if_pos hin]
  refine ⟨skip env fs, ?_⟩
  intro name fs1 log h
  have hread : env.readDirErr = false := by
    cases hre : env.readDirErr with
    | false => rfl
    | true =>
      unfold downloadImage readDir at h
      rw [hre] at h
      simp at h
  have hr : readDir env fs = some ((Dir.names fs).insertionSort (fun a b => a ≤ b)) := by
    unfold readDir; rw [hread]; rfl
  unfold downloadImage at h
  rw [hr] at h
  dsimp only at h
  by_cases hin : stripFileName (fileName r) ∈ (Dir.names fs).insertionSort (fun a b => a ≤ b)
  · rw [if_pos hin] at h
    simp only [Outcome.returned.injEq] at h
    obtain ⟨rfl, rfl, _⟩ := h
    have hmem := (mem_readDir env fs _ hr _).mp hin
    exact ⟨hread, rfl, hmem, fun env2 h2 => skip env2 fs h2 hmem⟩
  · rw [if_neg hin] at h
    cases hg : env.httpGet r.HDURL with
    | none => rw [hg] at h; simp at h
    | some response =>
      rw [hg] at h
      dsimp only at h
      cases hc : create env fs (stripFileName (fileName r)) with
      | none => rw [hc] at h; simp at h
      | some fs2 =>
        rw [hc] at h
        dsimp only at h
        by_cases hre : response.readErr = true
        · rw [if_pos hre] at h; simp at h
        · rw [if_neg hre] at h
          simp only [Outcome.returned.injEq] at h
          obtain ⟨rfl, rfl, _⟩ := h
          have hmem : stripFileName (fileName r) ∈
              Dir.names (Dir.put fs2 (stripFileName (fileName r)) (Node.file response.body)) := by
            rw [← Dir.find_isSome_iff, Dir.find_put, if_pos rfl]
            rfl
          exact ⟨hread, rfl, hmem, fun env2 h2 => skip env2 _ h2 hmem⟩

/-- C2 at a directory that holds today's picture, and at the directory that
a download into the empty directory leaves. -/
theorem downloadImage_skips_existing_witness :
    Example.offline.readDirErr = false ∧
      stripFileName (fileName Example.picture) ∈ Dir.names Example.twoPictures ∧
      downloadImage Example.offline Example.picture Example.twoPictures =
        Outcome.returned (stripFileName (fileName Example.picture)) Example.twoPictures
          [Event.readDir, Event.stdout (lit "Image already downloaded, skipped\n")] ∧
      downloadImage Example.online Example.picture [] =
        Outcome.returned (lit "[2024-01-02] M31.jpg")
          [(lit "[2024-01-02] M31.jpg", Node.file [7, 8, 9])]
          [Event.readDir, Event.httpGet (lit "https://x/m31.jpg"),
           Event.create (lit "[2024-01-02] M31.jpg"),
           Event.write (lit "[2024-01-02] M31.jpg") [7, 8, 9],
           Event.stdout (lit "Image downloaded as '[2024-01-02] M31.jpg'\n")] ∧
      downloadImage Example.offline Example.picture
          [(lit "[2024-01-02] M31.jpg", Node.file [7, 8, 9])] =
        Outcome.returned (lit "[2024-01-02] M31.jpg")
          [(lit "[2024-01-02] M31.jpg", Node.file [7, 8, 9])]
          [Event.readDir, Event.stdout (lit "Image already downloaded, skipped\n")] :=
  ⟨rfl, by decide,
    (downloadImage_skips_existing Example.offline Example.picture Example.twoPictures).1 rfl
      (by decide),
    rfl,
    ((downloadImage_skips_existing Example.online Example.picture []).2 _ _ _ rfl).2.2.2
      Example.offline rfl⟩

/-- C4, as stated, fails: with `a.jpg` both in the working directory (content
1) and in `archived` (content 2), `archiveOldImages` returns and the file
`a.jpg` of the archive no longer has the content it had: the moved picture
replaced it. -/
theorem archiveOldImages_replaces_counterexample :
    archiveOldImages Example.offline (lit "b.jpg") Example.sameName =
        Outcome.returned () [(lit "archived", Node.dir [(lit "a.jpg", Node.file [1])])]
          [Event.stat archivedName, Event.readDir, Event.rename (lit "a.jpg"),
           Event.stdout (lit "Archived 'a.jpg'\n")] ∧
      archivedFind Example.sameName (lit "a.jpg") = some (Node.file [2]) ∧
      ¬ (archivedFind [(lit "archived", Node.dir [(lit "a.jpg", Node.file [1])])] (lit "a.jpg")
          = some (Node.file [2])) := by
  refine ⟨rfl, rfl, ?_⟩
  intro h
  have h2 : archivedFind [(lit "archived", Node.dir [(lit "a.jpg", Node.file [1])])] (lit "a.jpg")
      = some (Node.file [1]) := rfl
  rw [h2] at h
  simp at h

/-- C4, amended: when `archiveOldImages` returns, every entry that was in
`archived` before the call is still there unchanged, unless the working
directory held an entry of the same name that differs from the image name and
ends in `.jpg`: then the archive holds that moved entry under the name. -/
theorem archiveOldImages_keeps_archive_unless_same_name (env : Env) (image : GoString)
    (fs fs' : Dir) (log : List Event)
    (h : archiveOldImages env image fs = Outcome.returned () fs' log)
    (name : GoString) (node : Node) (hn : archivedFind fs name = some node) :
    (¬ ((Dir.find fs name).isSome = true ∧ name ≠ image ∧
          strings.HasSuffix name (lit ".jpg") = true) →
      archivedFind fs' name = some node) ∧
    (((Dir.find fs name).isSome = true ∧ name ≠ image ∧
          strings.HasSuffix name (lit ".jpg") = true) →
      archivedFind fs' name = Dir.find fs name) := by
  obtain ⟨_, a2, _, _⟩ := archiveOldImages_returned env image fs fs' log h
  refine ⟨?_, ?_⟩
  · intro hc
    rw [a2 name, if_neg (fun hx => hc ⟨hx.1, (isStale_iff image name).mp hx.2⟩), hn]
  · intro hc
    rw [a2 name, if_pos ⟨hc.1, (isStale_iff image name).mpr hc.2⟩]

/-- C4, amended, at an archive that holds `a.jpg` while the stale picture of
the working directory is `old.jpg`. -/
theorem archiveOldImages_keeps_archive_unless_same_name_witness :
    archiveOldImages Example.offline (lit "b.jpg")
        [(lit "old.jpg", Node.file [1]), (lit "archived", Node.dir [(lit "a.jpg", Node.file [2])])] =
      Outcome.returned ()
        [(lit "archived", Node.dir [(lit "a.jpg", Node.file [2]), (lit "old.jpg", Node.file [1])])]
        [Event.stat archivedName, Event.readDir, Event.rename (lit "old.jpg"),
         Event.stdout (lit "Archived 'old.jpg'\n")] ∧
      archivedFind
        [(lit "archived", Node.dir [(lit "a.jpg", Node.file [2]), (lit "old.jpg", Node.file [1])])]
        (lit "a.jpg") = some (Node.file [2]) :=
  ⟨rfl,
    (archiveOldImages_keeps_archive_unless_same_name Example.offline (lit "b.jpg")
      [(lit "old.jpg", Node.file [1]), (lit "archived", Node.dir [(lit "a.jpg", Node.file [2])])]
      _ _ rfl (lit "a.jpg") (Node.file [2]) rfl).1 (by decide)⟩

/-- C6, what the code does: when the body arrives and `json.Unmarshal` returns
an error on it, `fetchAPI` still prints its notice and returns the record
that the decoder left; it does not end the program. -/
theorem fetchAPI_returns_on_decode_error (env : Env) (api : GoString) (fs : Dir)
    (response : HttpResponse) (hget : env.httpGet api = some response)
    (hread : response.readErr = false) (_herr : (env.unmarshal response.body).2 = true) :
    fetchAPI env api fs =
      Outcome.returned (env.unmarshal response.body).1 fs
        [Event.httpGet api, Event.stdout (lit "API data fetched\n")] := by
  unfold fetchAPI
  rw [hget]
  dsimp only
  rw [hread]
  rfl

/-- C6 at the body `not json`: `fetchAPI` returns the empty record. -/
theorem fetchAPI_returns_on_decode_error_witness :
    (Example.badJson.unmarshal (lit "not json")).2 = true ∧
      fetchAPI Example.badJson (apiURL Example.badJson.dotEnv) [] =
        Outcome.returned Example.zeroResponse []
          [Event.httpGet (apiURL Example.badJson.dotEnv),
           Event.stdout (lit "API data fetched\n")] :=
  ⟨rfl,
    fetchAPI_returns_on_decode_error Example.badJson (apiURL Example.badJson.dotEnv) []
      { body := lit "not json", readErr := false } rfl rfl rfl⟩

/-- C7, as stated, fails: for a record of media type `other` without a link,
on which `http.Get` fails, `downloadImage` ends the program;
`archiveOldImages` and `setWallpaper` are not invoked and the explanation is
not printed. -/
theorem mainFrom_download_fatal_counterexample :
    Example.noLink.MediaType ≠ lit "video" ∧
      mainFrom Example.offline Example.noLink [] =
        Outcome.fatal "Failed to get image from link: " []
          [Event.invoke (Func.downloadImage Example.noLink), Event.readDir, Event.httpGet []] ∧
      ¬ (∃ image, invocations (mainFrom Example.offline Example.noLink []).log =
          [Func.downloadImage Example.noLink, Func.archiveOldImages image,
           Func.setWallpaper image]) ∧
      Event.stdout (lit "\n " ++ Example.noLink.Explanation ++ lit "\n") ∉
        (mainFrom Example.offline Example.noLink []).log := by
  have hlog : (mainFrom Example.offline Example.noLink []).log =
      [Event.invoke (Func.downloadImage Example.noLink), Event.readDir, Event.httpGet []] := rfl
  refine ⟨by decide, rfl, ?_, ?_⟩
  · rintro ⟨image, h⟩
    rw [hlog] at h
    have h2 : invocations
        [Event.invoke (Func.downloadImage Example.noLink), Event.readDir, Event.httpGet []] =
        [Func.downloadImage Example.noLink] := rfl
    rw [h2] at h
    simp at h
  · rw [hlog]
    simp

/-- C7, amended: for a record whose media type is `video`, `main` invokes none
of the three functions, prints the URL and then the explanation.  For any
other record it invokes `downloadImage` once; if that returns a name it
invokes `archiveOldImages` once with the name; if that returns it invokes
`setWallpaper` once with the same name; and if that returns it prints the
explanation.  Each of the three can end the program instead of returning, and
then nothing after it happens. -/
theorem mainFrom_branches_on_media_type (env : Env) (r : Response) (fs : Dir) :
    (r.MediaType = lit "video" →
      mainFrom env r fs =
        Outcome.returned () fs
          [Event.stdout (lit "Media is a video, skipped\n"), Event.stdout (r.URL ++ lit "\n"),
           Event.stdout (lit "\n " ++ r.Explanation ++ lit "\n"),
           Event.stdout (lit "\nPress any key to exit... "),
           Event.stdout (env.stdin ++ lit "\n")]) ∧
    (r.MediaType ≠ lit "video" →
      invocations (mainFrom env r fs).log =
          (match downloadImage env r fs with
            | Outcome.fatal _ _ _ => [Func.downloadImage r]
            | Outcome.returned image fs1 _ =>
              match archiveOldImages env image fs1 with
              | Outcome.fatal _ _ _ => [Func.downloadImage r, Func.archiveOldImages image]
              | Outcome.returned _ _ _ =>
                [Func.downloadImage r, Func.archiveOldImages image, Func.setWallpaper image]) ∧
        (∀ msg fs1 l1, downloadImage env r fs = Outcome.fatal msg fs1 l1 →
          mainFrom env r fs =
            Outcome.fatal msg fs1 (Event.invoke (Func.downloadImage r) :: l1)) ∧
        (∀ image fs1 l1 msg fs2 l2, downloadImage env r fs = Outcome.returned image fs1 l1 →
          archiveOldImages env image fs1 = Outcome.fatal msg fs2 l2 →
          mainFrom env r fs =
            Outcome.fatal msg fs2
              (Event.invoke (Func.downloadImage r) :: l1 ++
                Event.invoke (Func.archiveOldImages image) :: l2)) ∧
        (∀ image fs1 l1 fs2 l2 msg fs3 l3,
          downloadImage env r fs = Outcome.returned image fs1 l1 →
          archiveOldImages env image fs1 = Outcome.returned () fs2 l2 →
          setWallpaper env image fs2 = Outcome.fatal msg fs3 l3 →
          mainFrom env r fs =
            Outcome.fatal msg fs3
              (Event.invoke (Func.downloadImage r) :: l1 ++
                (Event.invoke (Func.archiveOldImages image) :: l2 ++
                  Event.invoke (Func.setWallpaper image) :: l3))) ∧
        (∀ image fs1 l1 fs2 l2 fs3 l3,
          downloadImage env r fs = Outcome.returned image fs1 l1 →
          archiveOldImages env image fs1 = Outcome.returned () fs2 l2 →
          setWallpaper env image fs2 = Outcome.returned () fs3 l3 →
          mainFrom env r fs =
            Outcome.returned () fs3
              (Event.invoke (Func.downloadImage r) :: l1 ++
                (Event.invoke (Func.archiveOldImages image) :: l2 ++
                  Event.invoke (Func.setWallpaper image) :: l3) ++
                [Event.stdout (lit "\n " ++ r.Explanation ++ lit "\n"),
                 Event.stdout (lit "\nPress any key to exit... "),
                 Event.stdout (env.stdin ++ lit "\n")]))) := by
  refine ⟨?_, ?_⟩
  · intro hv
    unfold mainFrom mainBranch
    rw [if_pos hv]
    rfl
  · intro hv
    have hmain : mainFrom env r fs =
        (((Outcome.after [Event.invoke (Func.downloadImage r)]
            (downloadImage env r fs)).andThen fun image fs1 =>
          (Outcome.after [Event.invoke (Func.archiveOldImages image)]
              (archiveOldImages env image fs1)).andThen fun _ fs2 =>
            Outcome.after [Event.invoke (Func.setWallpaper image)]
              (setWallpaper env image fs2)).andThen fun _ fs1 =>
          Outcome.returned () fs1
            [Event.stdout (lit "\n " ++ r.Explanation ++ lit "\n"),
             Event.stdout (lit "\nPress any key to exit... "),
             Event.stdout (env.stdin ++ lit "\n")]) := by
      unfold mainFrom mainBranch
      rw [if_neg hv]
    have hinv : ∀ f : Func, invocations [Event.invoke f] = [f] := fun _ => rfl
    refine ⟨?_, ?_, ?_, ?_, ?_⟩
    · rw [hmain]
      have hd := downloadImage_invocations env r fs
      cases hdl : downloadImage env r fs with
      | fatal msg fs1 l1 =>
        rw [hdl] at hd
        simp only [Outcome.after, Outcome.andThen, Outcome.log, List.singleton_append]
        rw [← List.singleton_append, invocations_append, hinv]
        simp only [Outcome.log] at hd
        rw [hd]
        rfl
      | returned image fs1 l1 =>
        rw [hdl] at hd
        simp only [Outcome.log] at hd
        have ha := archiveOldImages_invocations env image fs1
        cases hal : archiveOldImages env image fs1 with
        | fatal msg fs2 l2 =>
          rw [hal] at ha
          simp only [Outcome.log] at ha
          simp only [Outcome.after, Outcome.andThen, Outcome.log, hal]
          simp only [invocations_append, hinv, hd, ha]
          rfl
        | returned u fs2 l2 =>
          rw [hal] at ha
          simp only [Outcome.log] at ha
          have hs := setWallpaper_invocations env image fs2
          cases hsl : setWallpaper env image fs2 with
          | fatal msg fs3 l3 =>
            rw [hsl] at hs
            simp only [Outcome.log] at hs
            simp only [Outcome.after, Outcome.andThen, Outcome.log, hal, hsl]
            simp only [invocations_append, hinv, hd, ha, hs]
            rfl
          | returned u3 fs3 l3 =>
            rw [hsl] at hs
            simp only [Outcome.log] at hs
            simp only [Outcome.after, Outcome.andThen, Outcome.log, hal, hsl]
            simp only [invocations_append, hinv, hd, ha, hs]
            rfl
    · intro msg fs1 l1 hdl
      rw [hmain, hdl]
      rfl
    · intro image fs1 l1 msg fs2 l2 hdl hal
      rw [hmain, hdl]
      simp only [Outcome.after, Outcome.andThen, hal]
      rfl
    · intro image fs1 l1 fs2 l2 msg fs3 l3 hdl hal hsl
      rw [hmain, hdl]
      simp only [Outcome.after, Outcome.andThen, hal, hsl]
      rfl
    · intro image fs1 l1 fs2 l2 fs3 l3 hdl hal hsl
      rw [hmain, hdl]
      simp only [Outcome.after, Outcome.andThen, hal, hsl]
      rfl

/-- C7, amended, at a video record and at a picture record that is
downloaded, with an empty working directory. -/
theorem mainFrom_branches_on_media_type_witness :
    mainFrom Example.offline { Example.picture with MediaType := lit "video" } [] =
        Outcome.returned () []
          [Event.stdout (lit "Media is a video, skipped\n"),
           Event.stdout (lit "https://x/m31s.jpg" ++ lit "\n"),
           Event.stdout (lit "\n " ++ lit "A galaxy." ++ lit "\n"),
           Event.stdout (lit "\nPress any key to exit... "),
           Event.stdout (lit "\n" ++ lit "\n")] ∧
      Example.picture.MediaType ≠ lit "video" ∧
      invocations (mainFrom Example.online Example.picture []).log =
        [Func.downloadImage Example.picture, Func.archiveOldImages (lit "[2024-01-02] M31.jpg"),
         Func.setWallpaper (lit "[2024-01-02] M31.jpg")] :=
  ⟨(mainFrom_branches_on_media_type Example.offline
      { Example.picture with MediaType := lit "video" } []).1 rfl,
    by decide,
    ((mainFrom_branches_on_media_type Example.online Example.picture []).2 (by decide)).1⟩

end Apod
